import Mathlib

/-!
Verification of the aplane repository: the multi-party group assembler
(sdk/python/aplane/signer.py), the atomic-swap coordination tools
(examples/atomicswap/tools.py, box_exchange.py) and the HTLC coordination
tools (examples/htlc/tools.py), shallowly embedded in Lean.

Bytes are modelled as natural numbers below 256, byte strings as lists of
naturals.  Base64 transport encoding is a bijection on byte strings and is
elided: values that the Python code passes around as base64 text are
modelled by their decoded bytes, with the empty string corresponding to
the empty byte list.
-/

namespace Aplane

/-- Byte strings: lists of naturals (each intended below 256). -/
abbrev Bytes := List Nat

/-- Lowercase hexadecimal digit for a value below 16. -/
def hexDigit (n : Nat) : Char :=
  if n < 10 then Char.ofNat (48 + n) else Char.ofNat (87 + n)

/-- Two lowercase hex characters of one byte. -/
def byteHex (b : Nat) : List Char :=
  [hexDigit (b / 16 % 16), hexDigit (b % 16)]

/-- Lowercase hex rendering of a byte string, as in Python bytes.hex(). -/
def bytesToHex (bs : Bytes) : String :=
  String.mk (bs.flatMap byteHex)

/-- Value of one hex character, if it is a hex digit (as in bytes.fromhex). -/
def hexVal (c : Char) : Option Nat :=
  if 48 ≤ c.toNat ∧ c.toNat ≤ 57 then some (c.toNat - 48)
  else if 97 ≤ c.toNat ∧ c.toNat ≤ 102 then some (c.toNat - 87)
  else if 65 ≤ c.toNat ∧ c.toNat ≤ 70 then some (c.toNat - 55)
  else none

/-- Decode a hex character list to bytes; none on a non-hex character or an
odd length, as Python bytes.fromhex raises ValueError there. -/
def hexBytesAux : List Char → Option Bytes
  | [] => some []
  | [_] => none
  | c1 :: c2 :: rest =>
    match hexVal c1, hexVal c2, hexBytesAux rest with
    | some h, some l, some bs => some ((16 * h + l) :: bs)
    | _, _, _ => none

/-- Python bytes.fromhex on a string. -/
def bytesFromHex (s : String) : Option Bytes :=
  hexBytesAux s.data

/-! ## SHA-256 (hashlib.sha256), over byte lists, all arithmetic mod 2^32 -/

/-- Truncate to a 32-bit word. -/
def w32 (n : Nat) : Nat := n % 4294967296

/-- 32-bit rotate right. -/
def rotr (n x : Nat) : Nat :=
  w32 (x / 2 ^ n + x % 2 ^ n * 2 ^ (32 - n))

/-- 32-bit bitwise xor. -/
def bxor (a b : Nat) : Nat := a ^^^ b

/-- SHA-256 round constants. -/
def shaK : List Nat :=
  [1116352408, 1899447441, 3049323471, 3921009573, 961987163, 1508970993,
   2453635748, 2870763221, 3624381080, 310598401, 607225278, 1426881987,
   1925078388, 2162078206, 2614888103, 3248222580, 3835390401, 4022224774,
   264347078, 604807628, 770255983, 1249150122, 1555081692, 1996064986,
   2554220882, 2821834349, 2952996808, 3210313671, 3336571891, 3584528711,
   113926993, 338241895, 666307205, 773529912, 1294757372, 1396182291,
   1695183700, 1986661051, 2177026350, 2456956037, 2730485921, 2820302411,
   3259730800, 3345764771, 3516065817, 3600352804, 4094571909, 275423344,
   430227734, 506948616, 659060556, 883997877, 958139571, 1322822218,
   1537002063, 1747873779, 1955562222, 2024104815, 2227730452, 2361852424,
   2428436474, 2756734187, 3204031479, 3329325298]

/-- The eight SHA-256 working registers. -/
structure H8 where
  a : Nat
  b : Nat
  c : Nat
  d : Nat
  e : Nat
  f : Nat
  g : Nat
  h : Nat

/-- Initial hash value. -/
def shaH0 : H8 :=
  ⟨1779033703, 3144134277, 1013904242, 2773480762,
   1359893119, 2600822924, 528734635, 1541459225⟩

/-- Big-endian 32-bit word from four bytes. -/
def word4 (b0 b1 b2 b3 : Nat) : Nat :=
  w32 (b0 * 16777216 + b1 * 65536 + b2 * 256 + b3)

/-- The sixteen words of one 64-byte block (big-endian). -/
def blockWords : Bytes → List Nat
  | b0 :: b1 :: b2 :: b3 :: rest => word4 b0 b1 b2 b3 :: blockWords rest
  | _ => []

/-- Small sigma 0 in the message schedule. -/
def ssig0 (x : Nat) : Nat := bxor (rotr 7 x) (bxor (rotr 18 x) (x / 8))

/-- Small sigma 1 in the message schedule. -/
def ssig1 (x : Nat) : Nat := bxor (rotr 17 x) (bxor (rotr 19 x) (x / 1024))

/-- Extend the message schedule by n further words. -/
def extendWords : Nat → List Nat → List Nat
  | 0, ws => ws
  | n + 1, ws =>
    let i := ws.length
    let nw := w32 (ssig1 (ws.getD (i - 2) 0) + ws.getD (i - 7) 0 +
                   ssig0 (ws.getD (i - 15) 0) + ws.getD (i - 16) 0)
    extendWords n (ws ++ [nw])

/-- Big sigma 0 in the compression round. -/
def bsig0 (x : Nat) : Nat := bxor (rotr 2 x) (bxor (rotr 13 x) (rotr 22 x))

/-- Big sigma 1 in the compression round. -/
def bsig1 (x : Nat) : Nat := bxor (rotr 6 x) (bxor (rotr 11 x) (rotr 25 x))

/-- Choice function. -/
def chF (e f g : Nat) : Nat := bxor (Nat.land e f) (Nat.land (w32 (4294967295 - e % 4294967296)) g)

/-- Majority function. -/
def majF (a b c : Nat) : Nat :=
  bxor (Nat.land a b) (bxor (Nat.land a c) (Nat.land b c))

/-- One compression round with round word kw. -/
def roundStep (st : H8) (kw : Nat) : H8 :=
  let t1 := w32 (st.h + bsig1 st.e + chF st.e st.f st.g + kw)
  let t2 := w32 (bsig0 st.a + majF st.a st.b st.c)
  ⟨w32 (t1 + t2), st.a, st.b, st.c, w32 (st.d + t1), st.e, st.f, st.g⟩

/-- Run the 64 compression rounds over the schedule paired with constants. -/
def rounds (st : H8) : List Nat → H8
  | [] => st
  | kw :: rest => rounds (roundStep st kw) rest

/-- Compress one 64-byte block into the running hash. -/
def compressBlock (st : H8) (block : Bytes) : H8 :=
  let ws := extendWords 48 (blockWords block)
  let res := rounds st (List.zipWith (fun k w => w32 (k + w)) shaK ws)
  ⟨w32 (st.a + res.a), w32 (st.b + res.b), w32 (st.c + res.c), w32 (st.d + res.d),
   w32 (st.e + res.e), w32 (st.f + res.f), w32 (st.g + res.g), w32 (st.h + res.h)⟩

/-- Fold the compression over n blocks taken off the front of the padded
message (structural in n so that the kernel can evaluate it). -/
def compressBlocks (st : H8) : Nat → Bytes → H8
  | 0, _ => st
  | n + 1, msg => compressBlocks (compressBlock st (msg.take 64)) n (msg.drop 64)

/-- Big-endian 8-byte rendering of a natural number. -/
def len8 (n : Nat) : Bytes :=
  [n / 2 ^ 56 % 256, n / 2 ^ 48 % 256, n / 2 ^ 40 % 256, n / 2 ^ 32 % 256,
   n / 2 ^ 24 % 256, n / 2 ^ 16 % 256, n / 2 ^ 8 % 256, n % 256]

/-- SHA-256 padding: 0x80, zeros to 56 mod 64, then the 64-bit bit length. -/
def shaPad (msg : Bytes) : Bytes :=
  msg ++ 0x80 :: List.replicate ((64 - (msg.length + 9) % 64) % 64) 0 ++
    len8 (msg.length * 8)

/-- Big-endian 4-byte rendering of a 32-bit word. -/
def wordBytes (wv : Nat) : Bytes :=
  [wv / 16777216 % 256, wv / 65536 % 256, wv / 256 % 256, wv % 256]

/-- SHA-256 digest of a byte string: 32 bytes. -/
def sha256 (msg : Bytes) : Bytes :=
  let p := shaPad msg
  let st := compressBlocks shaH0 (p.length / 64) p
  wordBytes st.a ++ wordBytes st.b ++ wordBytes st.c ++ wordBytes st.d ++
    wordBytes st.e ++ wordBytes st.f ++ wordBytes st.g ++ wordBytes st.h

/-- hashlib.sha256(msg).hexdigest(): 64 lowercase hex characters. -/
def sha256hex (msg : Bytes) : String :=
  bytesToHex (sha256 msg)

/-- UTF-8 encoding of one character. -/
def utf8Char (c : Char) : Bytes :=
  let n := c.toNat
  if n < 128 then [n]
  else if n < 2048 then [192 + n / 64, 128 + n % 64]
  else if n < 65536 then [224 + n / 4096, 128 + n / 64 % 64, 128 + n % 64]
  else [240 + n / 262144, 128 + n / 4096 % 64, 128 + n / 64 % 64, 128 + n % 64]

/-- UTF-8 encoding of a character list. -/
def utf8Chars (cs : List Char) : Bytes :=
  cs.flatMap utf8Char

/-- UTF-8 encoding of a string, as Python str.encode. -/
def utf8Bytes (s : String) : Bytes :=
  utf8Chars s.data

/-! ## JSON values and json.dumps

The coordination notes and the proposal-hash input are flat JSON objects
whose values are strings, integers, booleans or null; Jval models those
atomic values and an object is an insertion-ordered association list
(Python dicts preserve insertion order and have unique keys). -/

/-- An atomic JSON value. -/
inductive Jval where
  | jnull
  | jbool (b : Bool)
  | jnum (n : Int)
  | jstr (s : String)
deriving DecidableEq, Repr

/-- Little-endian decimal digits, with fuel (fuel ≥ n suffices). -/
def natDigsAux : Nat → Nat → List Nat
  | 0, _ => []
  | _ + 1, 0 => []
  | fuel + 1, n => n % 10 :: natDigsAux fuel (n / 10)

/-- Little-endian decimal digits of a positive number. -/
def natDigs (n : Nat) : List Nat := natDigsAux n n

/-- Decimal character rendering of a natural number. -/
def natChars (n : Nat) : List Char :=
  if n = 0 then ['0']
  else ((natDigs n).reverse).map (fun d => Char.ofNat (48 + d))

/-- Decimal character rendering of an integer, as json.dumps renders int. -/
def intChars : Int → List Char
  | .ofNat n => natChars n
  | .negSucc m => '-' :: natChars (m + 1)

/-- One \uXXXX escape. -/
def uEscape (n : Nat) : List Char :=
  ['\\', 'u', hexDigit (n / 4096 % 16), hexDigit (n / 256 % 16),
   hexDigit (n / 16 % 16), hexDigit (n % 16)]

/-- json.dumps escaping of one character (default ensure_ascii=True:
everything outside space..tilde is escaped). -/
def escChar (c : Char) : List Char :=
  if c = '"' then ['\\', '"']
  else if c = '\\' then ['\\', '\\']
  else if c = '\n' then ['\\', 'n']
  else if c = '\t' then ['\\', 't']
  else if c = '\r' then ['\\', 'r']
  else if c.toNat = 8 then ['\\', 'b']
  else if c.toNat = 12 then ['\\', 'f']
  else if c.toNat < 32 then uEscape c.toNat
  else if c.toNat < 127 then [c]
  else if c.toNat < 65536 then uEscape c.toNat
  else uEscape (55296 + (c.toNat - 65536) / 1024) ++
       uEscape (56320 + (c.toNat - 65536) % 1024)

/-- json.dumps escaping of a character list. -/
def escChars (cs : List Char) : List Char :=
  cs.flatMap escChar

/-- json.dumps of an atomic value. -/
def dumpAtom : Jval → List Char
  | .jnull => ['n', 'u', 'l', 'l']
  | .jbool true => ['t', 'r', 'u', 'e']
  | .jbool false => ['f', 'a', 'l', 's', 'e']
  | .jnum n => intChars n
  | .jstr s => '"' :: (escChars s.data ++ ['"'])

/-- One key: value member with the ":" separator. -/
def dumpMember (kv : String × Jval) : List Char :=
  '"' :: (escChars kv.1.data ++ '"' :: ':' :: dumpAtom kv.2)

/-- Join with the "," separator. -/
def joinComma : List (List Char) → List Char
  | [] => []
  | [x] => x
  | x :: rest => x ++ ',' :: joinComma rest

/-- json.dumps of an object with separators=(",", ":"): key order is the
insertion order of the dict. -/
def dumpObj (kvs : List (String × Jval)) : List Char :=
  Char.ofNat 123 :: (joinComma (kvs.map dumpMember) ++ [Char.ofNat 125])

/-- Code-point-lexicographic string order, as Python compares str. -/
def strLeChars : List Char → List Char → Bool
  | [], _ => true
  | _ :: _, [] => false
  | a :: as, b :: bs =>
    if a.toNat < b.toNat then true
    else if b.toNat < a.toNat then false
    else strLeChars as bs

/-- Insert one item into a key-sorted item list. -/
def insertKey (x : String × Jval) : List (String × Jval) → List (String × Jval)
  | [] => [x]
  | y :: ys => if strLeChars x.1.data y.1.data then x :: y :: ys else y :: insertKey x ys

/-- The items of a dict ordered by key, as json.dumps sort_keys=True
iterates sorted(d.items()); the keys of a dict are unique, so sorting by
the code-point order of the keys is deterministic. -/
def sortKeysObj : List (String × Jval) → List (String × Jval)
  | [] => []
  | x :: xs => insertKey x (sortKeysObj xs)

/-- json.dumps(d, sort_keys=True, separators=(",", ":")). -/
def dumpObjSorted (kvs : List (String × Jval)) : List Char :=
  dumpObj (sortKeysObj kvs)

end Aplane

namespace Atomicswap

open Aplane

/-- The swap-terms dict as built in _proposal_hash (insertion order of the
source), before key sorting. -/
def propDict (buyer_addr seller_addr : String)
    (offer_asa offer_amount want_asa want_amount : Int) :
    List (String × Jval) :=
  [("buyer", .jstr buyer_addr), ("seller", .jstr seller_addr),
   ("offer_asa", .jnum offer_asa), ("offer_amount", .jnum offer_amount),
   ("want_asa", .jnum want_asa), ("want_amount", .jnum want_amount)]

/-- The canonical serialization _proposal_hash feeds to sha256. -/
def propCanonical (kvs : List (String × Jval)) : List Char :=
  dumpObjSorted kvs

/-- Deterministic hash of a swap-terms dict: sha256 of the canonical
serialization, first 16 hex characters. -/
def proposalHashObj (kvs : List (String × Jval)) : String :=
  String.mk ((sha256hex (utf8Chars (propCanonical kvs))).data.take 16)

/-- _proposal_hash from atomicswap/tools.py. -/
def proposal_hash (buyer_addr seller_addr : String)
    (offer_asa offer_amount want_asa want_amount : Int) : String :=
  proposalHashObj (propDict buyer_addr seller_addr offer_asa offer_amount
    want_asa want_amount)

end Atomicswap

namespace Aplane

/-! ## Group Assembler and the concatenating signer call (signer.py) -/

/-- The distinct ValueError raise sites of assemble_group. -/
inductive MergeErr where
  | emptyInput
  | lengthMismatch (i got expected : Nat)
  | missingSigner (idx : Nat)
  | conflictingSigner (idx : Nat)
deriving DecidableEq, Repr

/-- First list whose length differs from the group length, with its index,
as the enumerate loop of assemble_group reports it. -/
def findLenMismatch (n : Nat) : Nat → List (List Bytes) → Option (Nat × Nat)
  | _, [] => none
  | i, sl :: rest =>
    if sl.length ≠ n then some (i, sl.length) else findLenMismatch n (i + 1) rest

/-- The non-empty entries of one slot across all signer lists
([sl[idx] for sl in signed_lists if sl[idx]], with empty bytes falsy). -/
def slotEntries (ls : List (List Bytes)) (idx : Nat) : List Bytes :=
  (ls.map (fun sl => sl.getD idx [])).filter (fun e => !e.isEmpty)

/-- The merge loop of assemble_group over the slot indices: each index
must have exactly one non-empty entry. -/
def mergeSlots (ls : List (List Bytes)) : List Nat → Except MergeErr (List Bytes)
  | [] => .ok []
  | idx :: rest =>
    match slotEntries ls idx with
    | [] => .error (.missingSigner idx)
    | [e] =>
      match mergeSlots ls rest with
      | .ok tail => .ok (e :: tail)
      | .error er => .error er
    | _ => .error (.conflictingSigner idx)

/-- assemble_group from signer.py: merge multi-party signed outputs into
one complete group (concatenation of the resolved slots). -/
def assemble_group (signed_lists : List (List Bytes)) : Except MergeErr Bytes :=
  match signed_lists with
  | [] => .error .emptyInput
  | first :: _ =>
    match findLenMismatch first.length 0 signed_lists with
    | some (i, got) => .error (.lengthMismatch i got first.length)
    | none =>
      match mergeSlots signed_lists (List.range first.length) with
      | .ok merged => .ok merged.flatten
      | .error er => .error er

/-- The SignerError raised by SignerClient.sign_transactions when the
per-slot server result contains foreign (empty) entries. -/
inductive SignErr where
  | signerErrorForeign
deriving DecidableEq, Repr

/-- SignerClient.sign_transactions, from the point where the per-slot
server result signed_list has been obtained from _sign_request: reject if
any foreign (empty) slot exists, else concatenate the whole group. -/
def sign_transactions_concat (signed_list : List Bytes) : Except SignErr Bytes :=
  if signed_list.any (fun s => s.isEmpty) then .error .signerErrorForeign
  else .ok signed_list.flatten

/-! ## Ledger message channel: the indexer query and note polling -/

/-- One indexer transaction as the polling code reads it: id, sender,
receiver, whether its tx-type is pay, confirmed round, and its note
parsed as a flat JSON object (none when the note is absent, not valid
JSON or not an object). -/
structure ITxn where
  id : String
  sender : String
  receiver : String
  isPay : Bool
  round : Nat
  note : Option (List (String × Jval))
deriving DecidableEq, Repr

/-- A polled protocol message as _poll_messages returns it. -/
structure Msg where
  txid : String
  round : Nat
  note : List (String × Jval)
  sender : String
deriving DecidableEq, Repr

/-- note_json.get("type", "") when the value is a string; polling skips
the transaction (via the broad except) when the value is not a string. -/
def noteTypeStr (nj : List (String × Jval)) : Option String :=
  match nj.lookup "type" with
  | some (.jstr s) => some s
  | some _ => none
  | none => some ""

/-- Python str.startswith, at the character level. -/
def pyStartsWith (s pre : String) : Bool := pre.data.isPrefixOf s.data

/-- The byte text whose prefix the indexer is asked to match:
the serialization of a note whose first member is "type": "family...". -/
def notePfxChars (family : String) : List Char :=
  ("\x7b\"type\":\"" ++ family).data

/-- _poll_messages (identical in atomicswap/tools.py and htlc/tools.py up
to the type family "swap_" / "htlc_"): the indexer serves transactions to
this address, of tx-type pay, whose note starts with the family prefix
and (when the watermark is positive) whose round is at least the
watermark; the client then drops already-seen ids and notes whose type
does not start with the family. -/
def pollMessages (family : String) (u : List ITxn) (address : String)
    (last_round : Nat) (seen : List String) : List Msg :=
  let served := u.filter (fun t =>
    t.receiver == address && t.isPay &&
    (match t.note with
     | some nj => decide (notePfxChars family <+: dumpObj nj)
     | none => false) &&
    (last_round == 0 || decide (last_round ≤ t.round)))
  served.filterMap (fun t =>
    if t.id ∈ seen then none
    else
      match t.note with
      | none => none
      | some nj =>
        match noteTypeStr nj with
        | some ty => if pyStartsWith ty family then some ⟨t.id, t.round, nj, t.sender⟩ else none
        | none => none)

/-- Outcome of one iteration of a wait_for_message polling loop. -/
inductive StepRes where
  | timeoutContinue
  | ignoredContinue
  | accepted (m : Msg)
  | errRes (msg : String)
deriving DecidableEq, Repr

/-- Decimal string of a natural number. -/
def natStr (n : Nat) : String := String.mk (natChars n)

/-- Truthiness of a JSON value, as Python bool(). -/
def jTruthy : Jval → Bool
  | .jnull => false
  | .jbool b => b
  | .jnum n => n != 0
  | .jstr s => s != ""

/-- int() coercion of a note value; the protocol notes carry numbers, so
only numeric shapes are modelled and other shapes yield the default. -/
def jIntD (d : Int) : Jval → Int
  | .jnum n => n
  | .jbool b => if b then 1 else 0
  | _ => d

/-- note.get(key, default) coerced with int(). -/
def getIntD (nj : List (String × Jval)) (k : String) (d : Int) : Int :=
  match nj.lookup k with
  | some v => jIntD d v
  | none => d

/-- note.get(key, default) for string values; non-string values fall back
to the default (the protocol notes carry strings in these fields). -/
def getStrD (nj : List (String × Jval)) (k : String) (d : String) : String :=
  match nj.lookup k with
  | some (.jstr s) => s
  | _ => d

end Aplane

namespace Atomicswap

open Aplane

/-- The SwapState dataclass of atomicswap/state.py. -/
structure SwapSt where
  role : String
  status : String
  my_address : String
  peer_address : String
  my_asa_id : Int
  my_asa_amount : Int
  peer_asa_id : Int
  peer_asa_amount : Int
  group_txid : String
  swap_app_id : Int
  swap_box_name : String
  seen_txids : List String
  last_seen_round : Nat
  actions : List String
deriving DecidableEq, Repr

/-- One iteration of the tool_wait_for_message polling loop of
atomicswap/tools.py, given the list the poll returned: an empty poll
sleeps and loops; otherwise the first new message is consumed (txid
appended to the seen set, round folded into the watermark), the session
is updated from the note and the message is returned.  There is no
check of the sender against the peer address in this variant. -/
def swapStep (st : SwapSt) (msgs : List Msg) : SwapSt × StepRes :=
  match msgs with
  | [] => (st, .timeoutContinue)
  | msg :: _ =>
    let msg_type := getStrD msg.note "type" ""
    let st1 := { st with seen_txids := st.seen_txids ++ [msg.txid],
                         last_seen_round := max st.last_seen_round msg.round }
    let st2 :=
      if msg_type = "swap_propose" then
        let stp := { st1 with
          peer_asa_id := getIntD msg.note "offer_asa" st1.peer_asa_id,
          peer_asa_amount := getIntD msg.note "offer_amount" st1.peer_asa_amount }
        let stp :=
          match msg.note.lookup "app_id" with
          | some v => if jTruthy v then { stp with swap_app_id := jIntD stp.swap_app_id v } else stp
          | none => stp
        { stp with status := "propose_received" }
      else if msg_type = "swap_partial" then
        let stp :=
          match msg.note.lookup "app_id" with
          | some v => if jTruthy v then { st1 with swap_app_id := jIntD st1.swap_app_id v } else st1
          | none => st1
        { stp with status := "partial_received" }
      else st1
    let st3 := { st2 with actions := st2.actions ++
      ["Received " ++ msg_type ++ " (round " ++ natStr msg.round ++ ")"] }
    (st3, .accepted msg)

/-- One poll-and-step iteration of tool_wait_for_message against an
indexer holding the transactions u, using the persisted watermark and
seen set. -/
def swapIter (st : SwapSt) (u : List ITxn) : SwapSt × StepRes :=
  swapStep st (pollMessages "swap_" u st.my_address st.last_seen_round st.seen_txids)

/-- Iterate swapIter over a sequence of indexer snapshots, collecting the
messages the loop accepted and returned. -/
def swapRun : SwapSt → List (List ITxn) → SwapSt × List Msg
  | st, [] => (st, [])
  | st, u :: us =>
    let p := swapIter st u
    let r := swapRun p.1 us
    (r.1, (match p.2 with | .accepted m => [m] | _ => []) ++ r.2)

/-- Result of tool_send_note: the error dict or the txid, the new state,
and the serialized note bytes written to the ledger (none if rejected). -/
structure SendNoteOut (σ : Type) where
  res : Except String String
  st : σ
  sentNote : Option (List Char)

/-- tool_send_note of atomicswap/tools.py: the note dict is serialized
with json.dumps(separators=(",", ":")) in the key order the caller
supplied — there is no canonicalization in this variant.  The confirmed
transaction id is an input (the ledger round trip is external). -/
def tool_send_note (st : SwapSt) (sender receiver : String)
    (note_json : List (String × Jval)) (txid : String) : SendNoteOut SwapSt :=
  if sender ≠ st.my_address then
    ⟨.error ("sender must be your address (" ++ st.my_address ++ ")"), st, none⟩
  else if receiver ≠ st.peer_address then
    ⟨.error ("receiver must be peer address (" ++ st.peer_address ++ ")"), st, none⟩
  else
    let note_chars := dumpObj note_json
    if 1024 < (utf8Chars note_chars).length then
      ⟨.error "Note exceeds 1024 bytes", st, none⟩
    else
      let msg_type := getStrD note_json "type" "?"
      let st := { st with actions := st.actions ++ ["Sent note (" ++ msg_type ++ ")"] }
      let st :=
        if msg_type = "swap_propose" then { st with status := "propose_sent" }
        else if msg_type = "swap_partial" then { st with status := "partial_sent" }
        else st
      ⟨.ok txid, st, some note_chars⟩

/-- A decoded planned transaction, as algosdk decodes the planned group:
either a PaymentTxn or an AssetTransferTxn (the binary decoding itself is
the external SDK's). -/
inductive PTxn where
  | pay (sender receiver : String) (amt : Int)
  | axfer (sender receiver : String) (amount : Int) (index : Int)
deriving DecidableEq, Repr

/-- Sender of a decoded transaction. -/
def PTxn.sender : PTxn → String
  | .pay s _ _ => s
  | .axfer s _ _ _ => s

/-- Receiver of a decoded transaction. -/
def PTxn.receiver : PTxn → String
  | .pay _ r _ => r
  | .axfer _ r _ _ => r

/-- The exchange data read back from the on-chain box (the JSON document
build_and_sign_swap wrote): the embedded proposal hash, the planned
transactions (decoded), and the seller's partial signatures. -/
structure ExchangeData where
  proposal_hash : String
  planned : List PTxn
  signed : List Bytes
deriving DecidableEq, Repr

/-- The external calls a protocol operation performed. -/
inductive Effect where
  | signTxns
  | assembleGroup
  | submitTxn
deriving DecidableEq, Repr

/-- Result of a protocol operation: the returned dict (ok txid or error
dict), or an uncaught Python exception. -/
inductive ToolRes where
  | ok (txid : String)
  | errDict (msg : String)
  | exn (msg : String)
deriving DecidableEq, Repr

/-- The TxnA field checks of tool_verify_and_submit_swap (index 0: the
buyer's own outgoing transfer). -/
def checkTxnA (st : SwapSt) (t : PTxn) : List String :=
  (if t.sender ≠ st.my_address then ["TxnA sender mismatch"] else []) ++
  (if t.receiver ≠ st.peer_address then ["TxnA receiver mismatch"] else []) ++
  (if st.my_asa_id = 0 then
    match t with
    | .pay _ _ amt => if amt ≠ st.my_asa_amount then ["TxnA amount mismatch"] else []
    | .axfer _ _ _ _ => ["TxnA expected PaymentTxn"]
   else
    match t with
    | .pay _ _ _ => ["TxnA expected AssetTransferTxn"]
    | .axfer _ _ amount index =>
      (if index ≠ st.my_asa_id then ["TxnA ASA mismatch"] else []) ++
      (if amount ≠ st.my_asa_amount then ["TxnA amount mismatch"] else []))

/-- The TxnB field checks of tool_verify_and_submit_swap (index 1: the
peer's transfer to us). -/
def checkTxnB (st : SwapSt) (t : PTxn) : List String :=
  (if t.sender ≠ st.peer_address then ["TxnB sender mismatch"] else []) ++
  (if t.receiver ≠ st.my_address then ["TxnB receiver mismatch"] else []) ++
  (if st.peer_asa_id = 0 then
    match t with
    | .pay _ _ amt => if amt ≠ st.peer_asa_amount then ["TxnB amount mismatch"] else []
    | .axfer _ _ _ _ => ["TxnB expected PaymentTxn"]
   else
    match t with
    | .pay _ _ _ => ["TxnB expected AssetTransferTxn"]
    | .axfer _ _ amount index =>
      (if index ≠ st.peer_asa_id then ["TxnB ASA mismatch"] else []) ++
      (if amount ≠ st.peer_asa_amount then ["TxnB amount mismatch"] else []))

/-- tool_verify_and_submit_swap of atomicswap/tools.py.  The box content
(already read and JSON-parsed) is ed; the buyer's own partial signatures
returned by the signer and the submission txid are inputs (external
calls).  The expected hash is recomputed from the session's own terms;
on mismatch the operation returns the error dict at once, performing no
signing, assembly or submission and leaving the status untouched. -/
def tool_verify_and_submit_swap (st : SwapSt) (ed : ExchangeData)
    (buyer_signed : List Bytes) (submit_txid : String) :
    SwapSt × ToolRes × List Effect :=
  let expected := proposal_hash st.my_address st.peer_address
    st.my_asa_id st.my_asa_amount st.peer_asa_id st.peer_asa_amount
  if ed.proposal_hash ≠ expected then
    ({ st with actions := st.actions ++ ["Proposal hash mismatch"] },
     .errDict ("Proposal hash mismatch: box=" ++ ed.proposal_hash ++
       ", expected=" ++ expected), [])
  else
    match ed.planned with
    | [] => (st, .exn "IndexError", [])
    | txn_a :: restTxns =>
      let errs := checkTxnA st txn_a ++
        (match restTxns with
         | [] => ["Group has fewer than 2 transactions"]
         | txn_b :: _ => checkTxnB st txn_b)
      if errs ≠ [] then
        ({ st with actions := st.actions ++ ["Transaction verification failed"] },
         .errDict "Transaction verification failed", [])
      else
        let st := { st with actions := st.actions ++
          ["Verified TxnA and TxnB fields match proposal"] }
        match assemble_group [ed.signed, buyer_signed] with
        | .error _ => (st, .exn "ValueError", [.signTxns, .assembleGroup])
        | .ok _ =>
          ({ st with group_txid := submit_txid, status := "submitted",
                     actions := st.actions ++ ["Submitted atomic group"] },
           .ok submit_txid, [.signTxns, .assembleGroup, .submitTxn])

end Atomicswap

namespace Htlc

open Aplane Atomicswap

/-- The SwapState dataclass of htlc/state.py. -/
structure HtlcSt where
  role : String
  status : String
  my_address : String
  peer_address : String
  preimage : String
  hash : String
  my_hashlock : String
  peer_hashlock : String
  my_timeout : Int
  peer_timeout : Int
  my_asa_id : Int
  my_asa_amount : Int
  peer_asa_id : Int
  peer_asa_amount : Int
  fund_algo_amount : Int
  claim_txid : String
  seen_txids : List String
  last_seen_round : Nat
  actions : List String
deriving DecidableEq, Repr

/-- Modelled from the spec: address validation is delegated to the external
ledger SDK, which spec section 1 places out of scope; modelled as the
58-character base32 format of an Algorand address.  No theorem below
depends on which strings this accepts. -/
def is_valid_address (s : String) : Bool :=
  s.length == 58 &&
    s.data.all (fun c => (65 ≤ c.toNat && c.toNat ≤ 90) ||
                         (50 ≤ c.toNat && c.toNat ≤ 55))

/-- Result of tool_create_hashlock: the returned dict (address or error),
the state after the call, and whether a key was generated on the signer. -/
structure KeyGenOut where
  res : Except String String
  st : HtlcSt
  keyGenerated : Bool
deriving Repr

/-- tool_create_hashlock of htlc/tools.py.  The address the signer would
return for the new hashlock-v1 key is the input newAddr; the key is
generated only after every check has passed.  A seller whose session
knows the buyer's advertised timeout refuses any timeout_round that is
not strictly below it. -/
def tool_create_hashlock (st : HtlcSt) (hash_hex recipient refund_address : String)
    (timeout_round : Int) (newAddr : String) : KeyGenOut :=
  if recipient ≠ st.peer_address then
    ⟨.error ("recipient must be peer address (" ++ st.peer_address ++ ")"), st, false⟩
  else if refund_address ≠ st.my_address then
    ⟨.error ("refund_address must be your address (" ++ st.my_address ++ ")"), st, false⟩
  else if hash_hex.length ≠ 64 then
    ⟨.error "hash_hex must be a 64-character hex string", st, false⟩
  else if (bytesFromHex hash_hex).isNone then
    ⟨.error "hash_hex must be valid hex", st, false⟩
  else if timeout_round ≤ 0 then
    ⟨.error "timeout_round must be > 0", st, false⟩
  else if st.role = "seller" ∧ st.peer_timeout ≠ 0 ∧ timeout_round ≥ st.peer_timeout then
    ⟨.error "seller timeout must be shorter than buyer timeout", st, false⟩
  else
    ⟨.ok newAddr,
     { st with my_hashlock := newAddr, my_timeout := timeout_round, hash := hash_hex,
               actions := st.actions ++ ["Created hashlock: " ++ newAddr] },
     true⟩

/-- tool_send_note of htlc/tools.py: unlike the atomicswap variant, the
note dict is canonicalized so that "type" is the first key before
serialization. -/
def tool_send_note (st : HtlcSt) (sender receiver : String)
    (note_json : List (String × Jval)) (txid : String) : SendNoteOut HtlcSt :=
  if sender ≠ st.my_address then
    ⟨.error ("sender must be your address (" ++ st.my_address ++ ")"), st, none⟩
  else if receiver ≠ st.peer_address then
    ⟨.error ("receiver must be peer address (" ++ st.peer_address ++ ")"), st, none⟩
  else
    let canonical :=
      match note_json.lookup "type" with
      | some v => ("type", v) :: note_json.filter (fun kv => kv.1 ≠ "type")
      | none => note_json
    let note_chars := dumpObj canonical
    if 1024 < (utf8Chars note_chars).length then
      ⟨.error "Note exceeds 1024 bytes", st, none⟩
    else
      let msg_type := getStrD canonical "type" "?"
      let st := { st with actions := st.actions ++ ["Sent note (" ++ msg_type ++ ")"] }
      let st :=
        if msg_type = "htlc_offer" then { st with status := "offer_sent" }
        else if msg_type = "htlc_accept" then { st with status := "accept_sent" }
        else st
      ⟨.ok txid, st, some note_chars⟩

/-- Mark a message consumed: append its txid to the seen set and fold
its round into the watermark. -/
def consumeMsg (st : HtlcSt) (m : Msg) : HtlcSt :=
  { st with seen_txids := st.seen_txids ++ [m.txid],
            last_seen_round := max st.last_seen_round m.round }

/-- One iteration of the tool_wait_for_message polling loop of
htlc/tools.py, given the list the poll returned.  A message from a
non-peer sender is consumed (dedup-marked, watermark folded) and skipped
without touching the rest of the session; a peer message is consumed and
then validated and applied according to its type. -/
def htlcStep (st : HtlcSt) (msgs : List Msg) : HtlcSt × StepRes :=
  match msgs with
  | [] => (st, .timeoutContinue)
  | msg :: _ =>
    if msg.sender ≠ st.peer_address then
      ({ consumeMsg st msg with
          actions := st.actions ++
            ["Ignored " ++ (if getStrD msg.note "type" "" = "" then "unknown"
                            else getStrD msg.note "type" "") ++
             " note from non-peer sender " ++ msg.sender] },
       .ignoredContinue)
    else if getStrD msg.note "type" "" = "htlc_offer" then
      if (getStrD msg.note "hash" "").length ≠ 64 then
        (consumeMsg st msg, .errRes "Invalid htlc_offer: hash must be 64 hex chars")
      else if (bytesFromHex (getStrD msg.note "hash" "")).isNone then
        (consumeMsg st msg, .errRes "Invalid htlc_offer: hash must be valid hex")
      else if ¬ is_valid_address (getStrD msg.note "hashlock_addr" "") then
        (consumeMsg st msg,
         .errRes "Invalid htlc_offer: hashlock_addr is not a valid Algorand address")
      else if getIntD msg.note "timeout_round" 0 ≤ 0 then
        (consumeMsg st msg, .errRes "Invalid htlc_offer: timeout_round must be > 0")
      else if getIntD msg.note "asa_id" (-1) ≠ st.peer_asa_id then
        (consumeMsg st msg, .errRes "Invalid htlc_offer: asa_id mismatch")
      else if getIntD msg.note "asa_amount" (-1) ≠ st.peer_asa_amount then
        (consumeMsg st msg, .errRes "Invalid htlc_offer: asa_amount mismatch")
      else
        ({ consumeMsg st msg with
            hash := getStrD msg.note "hash" "",
            peer_hashlock := getStrD msg.note "hashlock_addr" "",
            peer_timeout := getIntD msg.note "timeout_round" 0,
            peer_asa_id := getIntD msg.note "asa_id" (-1),
            peer_asa_amount := getIntD msg.note "asa_amount" (-1),
            status := "offer_received",
            actions := st.actions ++
              ["Received " ++ getStrD msg.note "type" "" ++ " (round " ++
               natStr msg.round ++ ")"] },
         .accepted msg)
    else if getStrD msg.note "type" "" = "htlc_accept" then
      if ¬ is_valid_address (getStrD msg.note "hashlock_addr" "") then
        (consumeMsg st msg,
         .errRes "Invalid htlc_accept: hashlock_addr is not a valid Algorand address")
      else if getIntD msg.note "timeout_round" 0 ≤ 0 then
        (consumeMsg st msg, .errRes "Invalid htlc_accept: timeout_round must be > 0")
      else if st.my_timeout ≠ 0 ∧ getIntD msg.note "timeout_round" 0 ≥ st.my_timeout then
        (consumeMsg st msg,
         .errRes "Unsafe htlc_accept: peer timeout must be shorter than ours")
      else if getIntD msg.note "asa_id" (-1) ≠ st.peer_asa_id then
        (consumeMsg st msg, .errRes "Invalid htlc_accept: asa_id mismatch")
      else if getIntD msg.note "asa_amount" (-1) ≠ st.peer_asa_amount then
        (consumeMsg st msg, .errRes "Invalid htlc_accept: asa_amount mismatch")
      else
        ({ consumeMsg st msg with
            peer_hashlock := getStrD msg.note "hashlock_addr" "",
            peer_timeout := getIntD msg.note "timeout_round" 0,
            peer_asa_id := getIntD msg.note "asa_id" (-1),
            peer_asa_amount := getIntD msg.note "asa_amount" (-1),
            status := "accept_received",
            actions := st.actions ++
              ["Received " ++ getStrD msg.note "type" "" ++ " (round " ++
               natStr msg.round ++ ")"] },
         .accepted msg)
    else
      (consumeMsg st msg, .errRes ("Unknown note type: " ++ getStrD msg.note "type" ""))

/-- One poll-and-step iteration of the htlc tool_wait_for_message against
an indexer holding the transactions u. -/
def htlcIter (st : HtlcSt) (u : List ITxn) : HtlcSt × StepRes :=
  htlcStep st (pollMessages "htlc_" u st.my_address st.last_seen_round st.seen_txids)

/-- Iterate htlcIter over a sequence of indexer snapshots, collecting the
messages the loop accepted and returned. -/
def htlcRun : HtlcSt → List (List ITxn) → HtlcSt × List Msg
  | st, [] => (st, [])
  | st, u :: us =>
    let p := htlcIter st u
    let r := htlcRun p.1 us
    (r.1, (match p.2 with | .accepted m => [m] | _ => []) ++ r.2)

/-- One indexer transaction as _poll_hashlock_claim reads it: id, sender,
confirmed round, and the LogicSig arguments of its signature
(base64-decoded; empty when the signature has none). -/
structure LTxn where
  id : String
  sender : String
  round : Nat
  lsigArgs : List Bytes
deriving DecidableEq, Repr

/-- What _poll_hashlock_claim returns on success. -/
structure ClaimInfo where
  preimage : String
  txid : String
  round : Nat
deriving DecidableEq, Repr

/-- First transaction with LogicSig args in the served list. -/
def firstWithArgs : List LTxn → Option LTxn
  | [] => none
  | t :: rest => if t.lsigArgs.isEmpty then firstWithArgs rest else some t

/-- The transactions the indexer serves for the hashlock-claim query:
sender equals the hashlock address and the confirmed round is at least
min_round. -/
def claimServed (u : List LTxn) (hashlock_address : String) (min_round : Nat) :
    List LTxn :=
  u.filter (fun t => t.sender == hashlock_address && decide (min_round ≤ t.round))

/-- _poll_hashlock_claim of htlc/tools.py: the first served transaction
carrying LogicSig args yields the hex of its first argument as the
revealed preimage.  No hash check happens here. -/
def poll_hashlock_claim (u : List LTxn) (hashlock_address : String)
    (min_round : Nat) : Option ClaimInfo :=
  match firstWithArgs (claimServed u hashlock_address min_round) with
  | none => none
  | some t => some ⟨bytesToHex (t.lsigArgs.headD []), t.id, t.round⟩

/-- Outcome of one iteration of the tool_wait_for_preimage polling loop. -/
inductive PreimageRes where
  | noHashlockErr
  | timeoutContinue
  | found (preimage txid : String) (round : Nat)
deriving DecidableEq, Repr

/-- One iteration of tool_wait_for_preimage of htlc/tools.py: polls for a
claim from the session's own hashlock and, when one is found, stores the
extracted preimage in the session and marks it discovered — the stored
value is not checked against the session hash here. -/
def tool_wait_for_preimage_step (st : HtlcSt) (u : List LTxn) :
    HtlcSt × PreimageRes :=
  if st.my_hashlock = "" then (st, .noHashlockErr)
  else
    match poll_hashlock_claim u st.my_hashlock st.last_seen_round with
    | none => (st, .timeoutContinue)
    | some c =>
      ({ st with last_seen_round := max st.last_seen_round c.round,
                 preimage := c.preimage, status := "preimage_discovered",
                 actions := st.actions ++ ["Discovered preimage on-chain"] },
       .found c.preimage c.txid c.round)

/-- tool_claim_hashlock_asa of htlc/tools.py: claim an ASA (or ALGO when
asa_id = 0) from the peer hashlock with the preimage.  The preimage must
hash to the session commitment whenever one is present; the signing and
submission happen only after every check has passed (the confirmed txid
is an input). -/
def tool_claim_hashlock_asa (st : HtlcSt) (hashlock_address recipient
    preimage_hex : String) (asa_id : Int) (txid : String) :
    HtlcSt × Except String String × List Effect :=
  if st.peer_hashlock = "" then
    (st, .error "No peer_hashlock in state — cannot claim", [])
  else if hashlock_address ≠ st.peer_hashlock then
    (st, .error ("hashlock_address must be peer_hashlock (" ++ st.peer_hashlock ++ ")"), [])
  else if recipient ≠ st.my_address then
    (st, .error ("recipient must be your address (" ++ st.my_address ++ ")"), [])
  else if asa_id ≠ 0 ∧ asa_id ≠ st.peer_asa_id then
    (st, .error "asa_id mismatch", [])
  else if preimage_hex.length ≠ 64 then
    (st, .error "preimage_hex must be a 64-character hex string", [])
  else
    match bytesFromHex preimage_hex with
    | none => (st, .error "preimage_hex must be valid hex", [])
    | some preimage_bytes =>
      if st.hash ≠ "" ∧ sha256hex preimage_bytes ≠ st.hash then
        (st, .error "preimage_hex does not match expected hash in state", [])
      else
        ({ st with claim_txid := txid,
                   actions := st.actions ++ ["Claimed from " ++ hashlock_address] },
         .ok txid, [.signTxns, .submitTxn])

end Htlc

namespace BoxExchange

open Aplane

/-- Bytes per box_replace call. -/
def CHUNK_SIZE : Nat := 2000

/-- Creator (32B) + 4 ACL slots (4 x 32B). -/
def PREFIX_SIZE : Nat := 160

/-- _box_mbr of box_exchange.py. -/
def box_mbr (name_len value_len : Nat) : Nat :=
  2500 + 400 * (name_len + value_len)

/-- One transaction of the atomic group write_box builds. -/
inductive BoxTxn where
  | payMBR (amt : Nat)
  | createCall (box_size : Nat)
  | writeCall (offset : Nat) (chunk : Bytes)
deriving DecidableEq, Repr

/-- The chunk offsets range(0, size, CHUNK_SIZE). -/
def chunkOffsets (size : Nat) : List Nat :=
  (List.range ((size + CHUNK_SIZE - 1) / CHUNK_SIZE)).map (· * CHUNK_SIZE)

/-- The atomic transaction group built by write_box of box_exchange.py
for the given box name, applied to the already-compressed payload (the
compression itself is the external zlib library): the MBR funding
payment, the create call sized at compressed length plus the fixed
prefix, and one write call per CHUNK_SIZE slice of the compressed
payload. -/
def write_box_txns (box_name : Bytes) (compressed : Bytes) : List BoxTxn :=
  let size := compressed.length
  let box_size := size + PREFIX_SIZE
  let mbr := box_mbr box_name.length box_size
  [.payMBR mbr, .createCall box_size] ++
    (chunkOffsets size).map
      (fun offset => .writeCall offset ((compressed.drop offset).take CHUNK_SIZE))

/-- Modelled from the spec: compression is the external zlib library
(spec section 4.4, "compresses payload"; the library itself is not part
of this repository).  On the empty payload zlib.compress produces the
fixed 8-byte stream 78 9c 03 00 00 00 00 01: the 2-byte RFC 1950 header,
one empty final deflate block, and the 4-byte adler32 of the empty
string — in particular it is not empty. -/
def zlibCompressEmpty : Bytes := [0x78, 0x9c, 0x03, 0x00, 0x00, 0x00, 0x00, 0x01]

/-- Whether a group member is a write-chunk application call. -/
def BoxTxn.isWrite : BoxTxn → Bool
  | .writeCall _ _ => true
  | _ => false

end BoxExchange

namespace Fixtures

open Aplane Atomicswap Htlc

/-- A swap_propose note whose sender is not the session peer. -/
def foreignNote : List (String × Jval) :=
  [("type", .jstr "swap_propose"), ("offer_asa", .jnum 7), ("offer_amount", .jnum 9)]

/-- An indexed transaction carrying foreignNote from a third party. -/
def foreignTxn : ITxn := ⟨"TX1", "EVIL", "ME", true, 5, some foreignNote⟩

/-- The polled message for foreignTxn. -/
def foreignMsg : Msg := ⟨"TX1", 5, foreignNote, "EVIL"⟩

/-- A buyer session of the atomic-swap protocol. -/
def swapSt : SwapSt :=
  ⟨"buyer", "pending", "ME", "PEER", 1, 2, 3, 4, "", 0, "", [], 0, []⟩

/-- A buyer session of the HTLC protocol. -/
def htlcSt : HtlcSt :=
  ⟨"buyer", "pending", "ME", "PEER", "", "", "", "", 0, 0, 1, 2, 3, 4,
   300000, "", [], 0, []⟩

/-- An htlc_offer note from a third party. -/
def hForeignNote : List (String × Jval) := [("type", .jstr "htlc_offer")]

/-- The polled message for hForeignNote. -/
def hForeignMsg : Msg := ⟨"TX2", 7, hForeignNote, "EVIL"⟩

/-- A seller session that knows the buyer timeout 500. -/
def sellerSt : HtlcSt :=
  { htlcSt with role := "seller", peer_timeout := 500 }

/-- A 64-character hex string. -/
def hex64 : String := String.mk (List.replicate 64 'a')

/-- An htlc_accept note from the peer whose timeout equals ours. -/
def acceptNote : List (String × Jval) :=
  [("type", .jstr "htlc_accept"), ("hashlock_addr", .jstr "X"),
   ("timeout_round", .jnum 300), ("asa_id", .jnum 3), ("asa_amount", .jnum 4)]

/-- The polled message for acceptNote, sent by the peer. -/
def acceptMsg : Msg := ⟨"TX3", 9, acceptNote, "PEER"⟩

/-- A buyer session with its own timeout 300 already set. -/
def buyerTimeoutSt : HtlcSt := { htlcSt with my_timeout := 300 }

/-- A note whose dict order puts another key before "type". -/
def lateTypeNote : List (String × Jval) :=
  [("offer_asa", .jnum 5), ("type", .jstr "swap_propose")]

/-- An htlc note whose dict order puts other keys before "type". -/
def hLateTypeNote : List (String × Jval) :=
  [("asa_id", .jnum 3), ("type", .jstr "htlc_offer"), ("asa_amount", .jnum 4)]

/-- A seller session that created its own hashlock and knows the
commitment of the 32-byte zero preimage rewritten to all f: the claim
transaction below reveals a preimage that does not hash to it. -/
def sellerLockSt : HtlcSt :=
  { htlcSt with role := "seller", my_hashlock := "LOCK", peer_hashlock := "PLOCK",
                hash := String.mk (List.replicate 64 'f') }

/-- A claim transaction from the seller lock revealing 32 zero bytes. -/
def claimTxn : Htlc.LTxn := ⟨"CTX", "LOCK", 11, [List.replicate 32 0]⟩

/-- An exchange object whose embedded hash cannot match any session. -/
def badEd : ExchangeData := ⟨"nope", [], []⟩

end Fixtures

/-! ## Theorems -/

open Aplane Atomicswap Htlc BoxExchange Fixtures

/-- C10: sign_transactions (the concatenating variant) raises a
SignerError whenever the per-slot server result contains any empty
entry, so every successful return is the concatenation of a fully signed
group with no unsigned slot omitted. -/
theorem sign_transactions_rejects_foreign (signed_list : List Bytes) :
    (([] : Bytes) ∈ signed_list →
      sign_transactions_concat signed_list = .error .signerErrorForeign) ∧
    (∀ r, sign_transactions_concat signed_list = .ok r →
      (∀ s ∈ signed_list, s ≠ []) ∧ r = signed_list.flatten) := by
  constructor
  · intro h
    have : signed_list.any (fun s => s.isEmpty) = true := by
      simp only [List.any_eq_true]
      exact ⟨[], h, rfl⟩
    simp [sign_transactions_concat, this]
  · intro r hr
    by_cases h : signed_list.any (fun s => s.isEmpty) = true
    · simp [sign_transactions_concat, h] at hr
    · simp only [List.any_eq_true, not_exists, not_and] at h
      refine ⟨fun s hs => ?_, ?_⟩
      · intro hcon
        exact absurd (by simp [hcon] : s.isEmpty = true) (h s hs)
      · have hb : signed_list.any (fun s => s.isEmpty) = false := by
          simp only [List.any_eq_false]
          intro s hs
          simp only [List.isEmpty_iff]
          intro hcon
          exact absurd (by simp [hcon] : s.isEmpty = true) (h s hs)
        simp [sign_transactions_concat, hb] at hr
        exact hr.symm

/-- Witness for C10 at a concrete input: an empty slot is rejected. -/
theorem sign_transactions_rejects_foreign_w :
    sign_transactions_concat [[1], []] = .error .signerErrorForeign :=
  (sign_transactions_rejects_foreign [[1], []]).1 (by decide)

/-- C4 counterexample: for the zero-length payload the compressed stream
is the 8-byte zlib empty stream, so write_box issues one write-chunk
call, not zero: the group is not just the funding payment and the create
call. -/
theorem write_box_empty_payload_counterexample :
    (write_box_txns [97] zlibCompressEmpty).countP BoxTxn.isWrite = 1 ∧
    write_box_txns [97] zlibCompressEmpty ≠
      [.payMBR (box_mbr 1 168), .createCall 168] := by
  decide

/-- Every mapped write call counts as a write. -/
theorem countP_isWrite_map (l : List Nat) (g : Nat → Bytes) :
    (l.map (fun o => BoxTxn.writeCall o (g o))).countP BoxTxn.isWrite =
      l.length := by
  induction l with
  | nil => rfl
  | cons a t ih => simp [List.countP_cons, BoxTxn.isWrite, ih]

/-- The write-call count of the write_box group is the chunk count of the
compressed payload. -/
theorem write_box_write_count (box_name compressed : Bytes) :
    (write_box_txns box_name compressed).countP BoxTxn.isWrite =
      (compressed.length + CHUNK_SIZE - 1) / CHUNK_SIZE := by
  have h : write_box_txns box_name compressed =
      [.payMBR (box_mbr box_name.length (compressed.length + PREFIX_SIZE)),
       .createCall (compressed.length + PREFIX_SIZE)] ++
      (chunkOffsets compressed.length).map
        (fun o => .writeCall o ((compressed.drop o).take CHUNK_SIZE)) := rfl
  rw [h, List.countP_append, countP_isWrite_map]
  simp [chunkOffsets, BoxTxn.isWrite, List.countP_cons]

/-- C4 amended: write_box builds the funding payment, the create call
sized at compressed length plus the 160-byte prefix, and one write call
per CHUNK_SIZE slice of the compressed payload; for the zero-length
payload the compressed stream is the nonempty 8-byte zlib empty stream,
so the group still creates the object but carries exactly one chunk
call. -/
theorem write_box_group_structure (box_name compressed : Bytes) :
    write_box_txns box_name compressed =
      .payMBR (box_mbr box_name.length (compressed.length + PREFIX_SIZE)) ::
      .createCall (compressed.length + PREFIX_SIZE) ::
      (chunkOffsets compressed.length).map
        (fun o => .writeCall o ((compressed.drop o).take CHUNK_SIZE)) ∧
    (write_box_txns box_name compressed).countP BoxTxn.isWrite =
      (compressed.length + CHUNK_SIZE - 1) / CHUNK_SIZE ∧
    (write_box_txns box_name zlibCompressEmpty).countP BoxTxn.isWrite = 1 := by
  refine ⟨rfl, write_box_write_count box_name compressed, ?_⟩
  rw [write_box_write_count]
  decide

/-- C2 counterexample: in the atomic-swap variant, a polled swap_propose
note from a sender that is not the session peer is nevertheless accepted:
it is returned as the accepted message, the status advances and the peer
asset fields are overwritten from it. -/
theorem swap_wait_accepts_nonpeer_counterexample :
    foreignMsg.sender ≠ swapSt.peer_address ∧
    pollMessages "swap_" [foreignTxn] swapSt.my_address swapSt.last_seen_round
      swapSt.seen_txids = [foreignMsg] ∧
    (swapIter swapSt [foreignTxn]).2 = .accepted foreignMsg ∧
    (swapIter swapSt [foreignTxn]).1.status = "propose_received" ∧
    (swapIter swapSt [foreignTxn]).1.peer_asa_id = 7 := by
  decide

/-- C2 amended: sender authentication holds in the HTLC variant only:
there, a polled message whose sender is not the expected peer is consumed
(txid appended to the seen set, round folded into the watermark) and
ignored — the loop continues, no status or peer field is updated from it
and it is never returned; the atomic-swap variant performs no sender
check and processes the first polled message whoever sent it. -/
theorem htlc_wait_ignores_nonpeer (st : HtlcSt) (m : Msg) (rest : List Msg)
    (hs : m.sender ≠ st.peer_address) :
    (htlcStep st (m :: rest)).2 = .ignoredContinue ∧
    (htlcStep st (m :: rest)).1.status = st.status ∧
    (htlcStep st (m :: rest)).1.peer_hashlock = st.peer_hashlock ∧
    (htlcStep st (m :: rest)).1.peer_timeout = st.peer_timeout ∧
    (htlcStep st (m :: rest)).1.peer_asa_id = st.peer_asa_id ∧
    (htlcStep st (m :: rest)).1.peer_asa_amount = st.peer_asa_amount ∧
    (htlcStep st (m :: rest)).1.hash = st.hash ∧
    (htlcStep st (m :: rest)).1.preimage = st.preimage ∧
    (htlcStep st (m :: rest)).1.my_timeout = st.my_timeout ∧
    m.txid ∈ (htlcStep st (m :: rest)).1.seen_txids ∧
    (htlcStep st (m :: rest)).1.last_seen_round = max st.last_seen_round m.round := by
  simp [htlcStep, consumeMsg, hs]

/-- Witness for the C2 amended theorem at a concrete input. -/
theorem htlc_wait_ignores_nonpeer_w :
    (htlcStep htlcSt [hForeignMsg]).2 = .ignoredContinue ∧
    (htlcStep htlcSt [hForeignMsg]).1.status = htlcSt.status :=
  ⟨(htlc_wait_ignores_nonpeer htlcSt hForeignMsg [] (by decide)).1,
   (htlc_wait_ignores_nonpeer htlcSt hForeignMsg [] (by decide)).2.1⟩

/-- C3: the HTLC timeout-ordering boundary is enforced on both sides,
and equality is rejected: a seller that knows the buyer timeout refuses
to create its lock (no key is generated, the session is unchanged)
whenever timeout_round is not strictly below the buyer timeout, and the
htlc_accept handler errors whenever the note timeout is not strictly
below the session's own timeout. -/
theorem htlc_timeout_boundary :
    (∀ (st : HtlcSt) (hash_hex recipient refund : String) (timeout : Int)
        (newAddr : String), st.role = "seller" → st.peer_timeout ≠ 0 →
        st.peer_timeout ≤ timeout →
        (∃ e, (tool_create_hashlock st hash_hex recipient refund timeout newAddr).res
            = .error e) ∧
        (tool_create_hashlock st hash_hex recipient refund timeout newAddr).keyGenerated
            = false ∧
        (tool_create_hashlock st hash_hex recipient refund timeout newAddr).st = st) ∧
    (∀ (st : HtlcSt) (m : Msg) (rest : List Msg), m.sender = st.peer_address →
        getStrD m.note "type" "" = "htlc_accept" →
        st.my_timeout ≠ 0 → st.my_timeout ≤ getIntD m.note "timeout_round" 0 →
        ∃ e, (htlcStep st (m :: rest)).2 = .errRes e) := by
  constructor
  · intro st hash_hex recipient refund timeout newAddr hrole hpt hle
    have hcond : st.role = "seller" ∧ st.peer_timeout ≠ 0 ∧ timeout ≥ st.peer_timeout :=
      ⟨hrole, hpt, hle⟩
    simp only [tool_create_hashlock]
    split_ifs <;> simp_all
  · intro st m rest hs hty hmt hle
    simp only [htlcStep, hs, hty, ne_eq, not_true_eq_false, if_false, ite_false,
      reduceIte]
    split_ifs
    all_goals
      first
        | exact ⟨_, rfl⟩
        | exact absurd (And.intro hmt hle) (by assumption)
        | simp_all

/-- Witness for C3 at concrete inputs: equal timeouts are rejected on
both the create side and the accept side. -/
theorem htlc_timeout_boundary_w :
    (∃ e, (tool_create_hashlock sellerSt hex64 "PEER" "ME" 500 "NEW").res = .error e) ∧
    (∃ e, (htlcStep buyerTimeoutSt [acceptMsg]).2 = .errRes e) :=
  ⟨(htlc_timeout_boundary.1 sellerSt hex64 "PEER" "ME" 500 "NEW" rfl
      (by decide) (by decide)).1,
   htlc_timeout_boundary.2 buyerTimeoutSt acceptMsg [] rfl
      (by decide) (by decide) (by decide)⟩

/-- The enumerate loop of assemble_group finds no length mismatch exactly
when every list has the group length. -/
theorem findLenMismatch_eq_none (n : Nat) (ls : List (List Bytes)) :
    ∀ i, findLenMismatch n i ls = none ↔ ∀ sl ∈ ls, sl.length = n := by
  induction ls with
  | nil => intro i; simp [findLenMismatch]
  | cons a t ih =>
    intro i
    by_cases h : a.length = n
    · simp [findLenMismatch, h, ih]
    · constructor
      · intro hc
        simp [findLenMismatch, h] at hc
      · intro hall
        exact absurd (hall a (by simp)) h

/-- With a list of the wrong length present, the enumerate loop reports
some mismatch. -/
theorem findLenMismatch_finds (n : Nat) (ls : List (List Bytes))
    (sl : List Bytes) (hmem : sl ∈ ls) (hne : sl.length ≠ n) :
    ∀ i, ∃ j g, findLenMismatch n i ls = some (j, g) := by
  induction ls with
  | nil => simp at hmem
  | cons a t ih =>
    intro i
    by_cases h : a.length = n
    · rcases List.mem_cons.mp hmem with rfl | hmem2
      · exact absurd h hne
      · have := ih hmem2 (i + 1)
        simpa [findLenMismatch, h] using this
    · exact ⟨i, a.length, by simp [findLenMismatch, h]⟩

/-- The merge loop succeeds exactly when every visited index has one
non-empty entry. -/
theorem mergeSlots_ok_iff (ls : List (List Bytes)) :
    ∀ idxs, (∃ r, mergeSlots ls idxs = .ok r) ↔
      ∀ i ∈ idxs, (slotEntries ls i).length = 1 := by
  intro idxs
  induction idxs with
  | nil => simp [mergeSlots]
  | cons idx rest ih =>
    cases h : slotEntries ls idx with
    | nil =>
      constructor
      · rintro ⟨r, hr⟩
        simp [mergeSlots, h] at hr
      · intro hall
        have := hall idx (by simp)
        rw [h] at this
        simp at this
    | cons e tail =>
      cases tail with
      | nil =>
        constructor
        · rintro ⟨r, hr⟩
          rw [mergeSlots, h] at hr
          intro i hi
          rcases List.mem_cons.mp hi with rfl | hi2
          · rw [h]; rfl
          · cases hm : mergeSlots ls rest with
            | ok tailr => exact (ih.mp ⟨tailr, hm⟩) i hi2
            | error er => rw [hm] at hr; exact absurd hr (by simp)
        · intro hall
          have hrest : ∃ r, mergeSlots ls rest = .ok r :=
            ih.mpr (fun i hi => hall i (List.mem_cons_of_mem _ hi))
          obtain ⟨tailr, hm⟩ := hrest
          exact ⟨e :: tailr, by rw [mergeSlots, h, hm]⟩
      | cons e2 tl =>
        constructor
        · rintro ⟨r, hr⟩
          rw [mergeSlots, h] at hr
          exact absurd hr (by simp)
        · intro hall
          have := hall idx (by simp)
          rw [h] at this
          simp at this

/-- A successful merge returns the unique entries in slot order. -/
theorem mergeSlots_ok_val (ls : List (List Bytes)) :
    ∀ idxs r, mergeSlots ls idxs = .ok r →
      r = idxs.map (fun i => (slotEntries ls i).headD []) := by
  intro idxs
  induction idxs with
  | nil => intro r hr; simpa [mergeSlots] using hr.symm
  | cons idx rest ih =>
    intro r hr
    cases h : slotEntries ls idx with
    | nil => rw [mergeSlots, h] at hr; exact absurd hr (by simp)
    | cons e tail =>
      cases tail with
      | nil =>
        rw [mergeSlots, h] at hr
        cases hm : mergeSlots ls rest with
        | ok tailr =>
          rw [hm] at hr
          have hr2 : e :: tailr = r := by simpa using hr
          rw [← hr2, ih tailr hm]
          simp [h]
        | error er => rw [hm] at hr; exact absurd hr (by simp)
      | cons e2 tl =>
        rw [mergeSlots, h] at hr
        exact absurd hr (by simp)

/-- The merge loop fails with the missing-signer error at the first index
with no entry, provided every earlier index resolved. -/
theorem mergeSlots_err_missing (ls : List (List Bytes)) :
    ∀ (pre : List Nat) (idx : Nat) (post : List Nat),
      (∀ j ∈ pre, (slotEntries ls j).length = 1) → slotEntries ls idx = [] →
      mergeSlots ls (pre ++ idx :: post) = .error (.missingSigner idx) := by
  intro pre
  induction pre with
  | nil => intro idx post _ h; rw [List.nil_append, mergeSlots, h]
  | cons j pre ih =>
    intro idx post hall h
    obtain ⟨e, he⟩ := List.length_eq_one.mp (hall j (by simp))
    rw [List.cons_append, mergeSlots, he, ih idx post
      (fun i hi => hall i (List.mem_cons_of_mem _ hi)) h]

/-- The merge loop fails with the conflicting-signer error at the first
index with two or more entries, provided every earlier index resolved. -/
theorem mergeSlots_err_conflict (ls : List (List Bytes)) :
    ∀ (pre : List Nat) (idx : Nat) (post : List Nat) (e1 e2 : Bytes) (tl : List Bytes),
      (∀ j ∈ pre, (slotEntries ls j).length = 1) →
      slotEntries ls idx = e1 :: e2 :: tl →
      mergeSlots ls (pre ++ idx :: post) = .error (.conflictingSigner idx) := by
  intro pre
  induction pre with
  | nil => intro idx post e1 e2 tl _ h; rw [List.nil_append, mergeSlots, h]
  | cons j pre ih =>
    intro idx post e1 e2 tl hall h
    obtain ⟨e, he⟩ := List.length_eq_one.mp (hall j (by simp))
    rw [List.cons_append, mergeSlots, he, ih idx post e1 e2 tl
      (fun i hi => hall i (List.mem_cons_of_mem _ hi)) h]

/-- Split the index range at a position below its bound. -/
theorem range_split (idx N : Nat) (h : idx < N) :
    ∃ post, List.range N = List.range idx ++ idx :: post := by
  have hN : N = (idx + 1) + (N - idx - 1) := by omega
  refine ⟨(List.range (N - idx - 1)).map ((idx + 1) + ·), ?_⟩
  rw [hN, List.range_add, List.range_succ, List.append_assoc, List.singleton_append]
  have h2 : idx + 1 + (N - idx - 1) - idx - 1 = N - idx - 1 := by omega
  rw [h2]

/-- C1: assemble_group on a non-empty family of per-signer lists, all of
the group length N, succeeds exactly when every index below N has one
non-empty entry, in which case it returns the N resolved entries
concatenated in slot order; the first index with no entry raises the
missing-signer error, the first index with several entries raises the
conflicting-signer error, and a family with unequal lengths fails with
the length-mismatch error. -/
theorem assemble_group_spec (ls : List (List Bytes)) (N : Nat)
    (hne : ls ≠ []) (hN : (ls.headD []).length = N) :
    ((∀ sl ∈ ls, sl.length = N) →
      (((∃ r, assemble_group ls = .ok r) ↔
          ∀ idx < N, (slotEntries ls idx).length = 1) ∧
       (∀ r, assemble_group ls = .ok r →
          r = ((List.range N).map (fun idx => (slotEntries ls idx).headD [])).flatten) ∧
       (∀ idx < N, slotEntries ls idx = [] →
          (∀ j < idx, (slotEntries ls j).length = 1) →
          assemble_group ls = .error (.missingSigner idx)) ∧
       (∀ idx < N, 2 ≤ (slotEntries ls idx).length →
          (∀ j < idx, (slotEntries ls j).length = 1) →
          assemble_group ls = .error (.conflictingSigner idx)))) ∧
    ((∃ sl ∈ ls, sl.length ≠ N) →
      ∃ i g, assemble_group ls = .error (.lengthMismatch i g N)) := by
  cases ls with
  | nil => exact absurd rfl hne
  | cons first rest =>
    have hfl : first.length = N := by simpa using hN
    constructor
    · intro hlen
      have hfind : findLenMismatch first.length 0 (first :: rest) = none :=
        (findLenMismatch_eq_none first.length (first :: rest) 0).mpr
          (fun sl hsl => by rw [hlen sl hsl, hfl])
      have hag : assemble_group (first :: rest) =
          match mergeSlots (first :: rest) (List.range first.length) with
          | .ok merged => .ok merged.flatten
          | .error er => .error er := by
        rw [assemble_group, hfind]
      refine ⟨?_, ?_, ?_, ?_⟩
      · rw [hag]
        cases hm : mergeSlots (first :: rest) (List.range first.length) with
        | ok merged =>
          simp only [hm]
          constructor
          · intro _ idx hidx
            exact (mergeSlots_ok_iff (first :: rest) (List.range first.length)).mp
              ⟨merged, hm⟩ idx (by rw [List.mem_range, hfl]; exact hidx)
          · intro _
            exact ⟨merged.flatten, rfl⟩
        | error er =>
          simp only [hm]
          constructor
          · rintro ⟨r, hr⟩
            exact absurd hr (by simp)
          · intro hall
            obtain ⟨r, hr⟩ := (mergeSlots_ok_iff (first :: rest)
              (List.range first.length)).mpr
              (fun i hi => hall i (by rw [← hfl, ← List.mem_range]; exact hi))
            rw [hm] at hr
            exact absurd hr (by simp)
      · intro r hr
        rw [hag] at hr
        cases hm : mergeSlots (first :: rest) (List.range first.length) with
        | ok merged =>
          rw [hm] at hr
          have : merged.flatten = r := by simpa using hr
          rw [← this, mergeSlots_ok_val (first :: rest) _ merged hm, hfl]
        | error er => rw [hm] at hr; exact absurd hr (by simp)
      · intro idx hidx hempty hprev
        obtain ⟨post, hsplit⟩ := range_split idx first.length (by omega)
        rw [hag, hsplit, mergeSlots_err_missing (first :: rest) (List.range idx) idx post
          (fun j hj => hprev j (List.mem_range.mp hj)) hempty]
      · intro idx hidx htwo hprev
        obtain ⟨post, hsplit⟩ := range_split idx first.length (by omega)
        obtain ⟨e1, l1, h1⟩ := List.exists_cons_of_ne_nil
          (List.ne_nil_of_length_pos (by omega : 0 < (slotEntries (first :: rest) idx).length))
        have h1len : 1 ≤ l1.length := by
          have := htwo
          rw [h1] at this
          simpa using this
        obtain ⟨e2, l2, h2⟩ := List.exists_cons_of_ne_nil
          (List.ne_nil_of_length_pos (by omega : 0 < l1.length))
        rw [hag, hsplit, mergeSlots_err_conflict (first :: rest) (List.range idx) idx post
          e1 e2 l2 (fun j hj => hprev j (List.mem_range.mp hj)) (by rw [h1, h2])]
    · rintro ⟨sl, hmem, hslne⟩
      obtain ⟨j, g, hfind⟩ := findLenMismatch_finds first.length (first :: rest) sl hmem
        (by rw [hfl]; exact hslne) 0
      refine ⟨j, g, ?_⟩
      rw [assemble_group, hfind, hfl]

/-- Witness for C1 at concrete inputs: a complementary pair of partial
signatures merges, and unequal lengths fail. -/
theorem assemble_group_spec_w :
    (∃ r, assemble_group [[[1], []], [[], [2]]] = .ok r) ∧
    (∃ i g, assemble_group [[[1]], [[], [2]]] = .error (.lengthMismatch i g 1)) :=
  ⟨((assemble_group_spec [[[1], []], [[], [2]]] 2 (by decide) (by decide)).1
      (by decide)).1.mpr (by decide),
   (assemble_group_spec [[[1]], [[], [2]]] 1 (by decide) (by decide)).2 (by decide)⟩

/-- The client-side dedup filter of _poll_messages: an id in the seen set
is never returned, whatever the round bound of the query. -/
theorem pollMessages_not_seen (family : String) (u : List ITxn) (address : String)
    (bound : Nat) (seen : List String) (t : String) (ht : t ∈ seen) :
    ∀ m ∈ pollMessages family u address bound seen, m.txid ≠ t := by
  intro m hm
  simp only [pollMessages, List.mem_filterMap] at hm
  obtain ⟨tx, _, hsome⟩ := hm
  by_cases hseen : tx.id ∈ seen
  · simp [hseen] at hsome
  · cases hnote : tx.note with
    | none => rw [hnote] at hsome; simp [hseen] at hsome
    | some nj =>
      rw [hnote] at hsome
      cases hty : noteTypeStr nj with
      | none => simp [hseen, hty] at hsome
      | some ty =>
        by_cases hpf : pyStartsWith ty family
        · simp only [hseen, if_false, hty, hpf, if_true, ite_false, ite_true,
            Option.some.injEq] at hsome
          intro hcon
          rw [← hsome] at hcon
          have htx : tx.id = t := hcon
          rw [htx] at hseen
          exact hseen ht
        · simp [hseen, hty, hpf] at hsome

/-- The accepted-message component of one swap polling step. -/
theorem swapStep_snd (st : SwapSt) (m : Msg) (rest : List Msg) :
    (swapStep st (m :: rest)).2 = .accepted m := rfl

/-- One swap polling step appends the consumed txid to the seen set. -/
theorem swapStep_seen (st : SwapSt) (m : Msg) (rest : List Msg) :
    (swapStep st (m :: rest)).1.seen_txids = st.seen_txids ++ [m.txid] := by
  simp only [swapStep]
  split_ifs <;> first | rfl | (split <;> first | rfl | (split_ifs <;> rfl))

/-- An accepted message of one swap polling step came from the polled
list. -/
theorem swapStep_accepted_mem (st : SwapSt) (msgs : List Msg) (m : Msg) :
    (swapStep st msgs).2 = .accepted m → m ∈ msgs := by
  cases msgs with
  | nil => intro h; exact absurd h (by simp [swapStep])
  | cons m0 rest =>
    intro h
    have h2 : StepRes.accepted m0 = .accepted m := h
    cases h2
    exact List.mem_cons_self _ _

set_option maxHeartbeats 2000000 in
/-- One HTLC polling step appends the consumed txid to the seen set. -/
theorem htlcStep_seen (st : HtlcSt) (m : Msg) (rest : List Msg) :
    (htlcStep st (m :: rest)).1.seen_txids = st.seen_txids ++ [m.txid] := by
  rw [htlcStep]
  split_ifs <;> rfl

set_option maxHeartbeats 2000000 in
/-- An accepted message of one HTLC polling step came from the polled
list. -/
theorem htlcStep_accepted_mem (st : HtlcSt) (msgs : List Msg) (m : Msg) :
    (htlcStep st msgs).2 = .accepted m → m ∈ msgs := by
  cases msgs with
  | nil => intro h; exact absurd h (by simp [htlcStep])
  | cons m0 rest =>
    intro h
    rw [htlcStep] at h
    split_ifs at h
    all_goals
      (have h2 : m0 = m := by simpa using h
       rw [← h2]
       exact List.mem_cons_self _ _)

/-- Seen ids survive one swap polling step. -/
theorem swapStep_seen_mono (st : SwapSt) (msgs : List Msg) (t : String)
    (ht : t ∈ st.seen_txids) : t ∈ (swapStep st msgs).1.seen_txids := by
  cases msgs with
  | nil => exact ht
  | cons m rest => rw [swapStep_seen]; exact List.mem_append_left _ ht

/-- Seen ids survive one HTLC polling step. -/
theorem htlcStep_seen_mono (st : HtlcSt) (msgs : List Msg) (t : String)
    (ht : t ∈ st.seen_txids) : t ∈ (htlcStep st msgs).1.seen_txids := by
  cases msgs with
  | nil => exact ht
  | cons m rest => rw [htlcStep_seen]; exact List.mem_append_left _ ht

/-- Dedup across any sequence of swap polling iterations. -/
theorem swapRun_dedup (t : String) : ∀ (us : List (List ITxn)) (st : SwapSt),
    t ∈ st.seen_txids →
    t ∈ (swapRun st us).1.seen_txids ∧ ∀ m ∈ (swapRun st us).2, m.txid ≠ t := by
  intro us
  induction us with
  | nil => intro st ht; exact ⟨ht, by simp [swapRun]⟩
  | cons u us ih =>
    intro st ht
    have hstep : t ∈ (swapIter st u).1.seen_txids := swapStep_seen_mono st _ t ht
    have hrec := ih (swapIter st u).1 hstep
    rw [swapRun]
    refine ⟨hrec.1, ?_⟩
    intro m hm
    rcases List.mem_append.mp hm with hm1 | hm2
    · have hacc : (swapIter st u).2 = .accepted m := by
        cases hres : (swapIter st u).2 <;> rw [hres] at hm1 <;> simp at hm1
        rw [hm1]
      have hmem := swapStep_accepted_mem st _ m hacc
      exact pollMessages_not_seen "swap_" u st.my_address st.last_seen_round
        st.seen_txids t ht m hmem
    · exact hrec.2 m hm2

/-- Dedup across any sequence of HTLC polling iterations. -/
theorem htlcRun_dedup (t : String) : ∀ (us : List (List ITxn)) (st : HtlcSt),
    t ∈ st.seen_txids →
    t ∈ (htlcRun st us).1.seen_txids ∧ ∀ m ∈ (htlcRun st us).2, m.txid ≠ t := by
  intro us
  induction us with
  | nil => intro st ht; exact ⟨ht, by simp [htlcRun]⟩
  | cons u us ih =>
    intro st ht
    have hstep : t ∈ (htlcIter st u).1.seen_txids := htlcStep_seen_mono st _ t ht
    have hrec := ih (htlcIter st u).1 hstep
    rw [htlcRun]
    refine ⟨hrec.1, ?_⟩
    intro m hm
    rcases List.mem_append.mp hm with hm1 | hm2
    · have hacc : (htlcIter st u).2 = .accepted m := by
        cases hres : (htlcIter st u).2 <;> rw [hres] at hm1 <;> simp at hm1
        rw [hm1]
      have hmem := htlcStep_accepted_mem st _ m hacc
      exact pollMessages_not_seen "htlc_" u st.my_address st.last_seen_round
        st.seen_txids t ht m hmem
    · exact hrec.2 m hm2

/-- C9: once a transaction id has been consumed by wait_for_message
(appended to the session's seen set), no later poll returns a message
with that id — the poll filter drops seen ids whatever the round bound,
and across any sequence of later polling iterations, in both protocol
variants, the id stays in the seen set and no accepted message carries
it. -/
theorem message_dedup_once_consumed (t : String) :
    (∀ (family : String) (u : List ITxn) (address : String) (bound : Nat)
        (seen : List String), t ∈ seen →
        ∀ m ∈ pollMessages family u address bound seen, m.txid ≠ t) ∧
    (∀ (st : SwapSt) (us : List (List ITxn)), t ∈ st.seen_txids →
        t ∈ (swapRun st us).1.seen_txids ∧ ∀ m ∈ (swapRun st us).2, m.txid ≠ t) ∧
    (∀ (st : HtlcSt) (us : List (List ITxn)), t ∈ st.seen_txids →
        t ∈ (htlcRun st us).1.seen_txids ∧ ∀ m ∈ (htlcRun st us).2, m.txid ≠ t) :=
  ⟨fun family u address bound seen ht =>
      pollMessages_not_seen family u address bound seen t ht,
   fun st us ht => swapRun_dedup t us st ht,
   fun st us ht => htlcRun_dedup t us st ht⟩

/-- Witness for C9 at a concrete input: with TX1 already consumed, a poll
with round bound 0 over an index still holding TX1 does not return it. -/
theorem message_dedup_once_consumed_w :
    (∀ m ∈ pollMessages "swap_" [foreignTxn] "ME" 0 ["TX1"], m.txid ≠ "TX1") ∧
    "TX1" ∈ (swapRun { swapSt with seen_txids := ["TX1"] } [[foreignTxn]]).1.seen_txids :=
  ⟨(message_dedup_once_consumed "TX1").1 "swap_" [foreignTxn] "ME" 0 ["TX1"] (by decide),
   ((message_dedup_once_consumed "TX1").2.1 { swapSt with seen_txids := ["TX1"] }
      [[foreignTxn]] (by decide)).1⟩

/-- C7: verify_and_submit recomputes the ProposalHash from the session's
own stored terms; when the hash embedded in the exchange object differs,
it stops with the error dict: nothing is signed, no group is assembled
or submitted, and neither the status nor the group txid advances. -/
theorem verify_and_submit_hash_mismatch (st : SwapSt) (ed : ExchangeData)
    (buyer_signed : List Bytes) (submit_txid : String)
    (h : ed.proposal_hash ≠ proposal_hash st.my_address st.peer_address
        st.my_asa_id st.my_asa_amount st.peer_asa_id st.peer_asa_amount) :
    (∃ msg, (tool_verify_and_submit_swap st ed buyer_signed submit_txid).2.1 =
      .errDict msg) ∧
    (tool_verify_and_submit_swap st ed buyer_signed submit_txid).2.2 = [] ∧
    (tool_verify_and_submit_swap st ed buyer_signed submit_txid).1.status = st.status ∧
    (tool_verify_and_submit_swap st ed buyer_signed submit_txid).1.group_txid =
      st.group_txid := by
  simp [tool_verify_and_submit_swap, h]

/-- The digest always has 32 bytes. -/
theorem sha256_length (msg : Bytes) : (sha256 msg).length = 32 := by
  simp [sha256, wordBytes]

/-- The hex digest always has 64 characters. -/
theorem sha256hex_length (msg : Bytes) : (sha256hex msg).length = 64 := by
  have h : ∀ bs : Bytes, (bs.flatMap byteHex).length = 2 * bs.length := by
    intro bs
    induction bs with
    | nil => rfl
    | cons b t ih => simp [byteHex, ih]; omega
  simp [sha256hex, bytesToHex, String.length, h, sha256_length]

/-- A proposal hash always has 16 characters. -/
theorem proposalHashObj_length (kvs : List (String × Jval)) :
    (proposalHashObj kvs).length = 16 := by
  have h64 := sha256hex_length (utf8Chars (propCanonical kvs))
  simp only [String.length] at h64
  simp [proposalHashObj, String.length, List.length_take, h64]

/-- Witness for C7 at a concrete input: an exchange object carrying the
hash "nope" is rejected with no effects. -/
theorem verify_and_submit_hash_mismatch_w :
    (∃ msg, (tool_verify_and_submit_swap swapSt badEd [] "T").2.1 = .errDict msg) ∧
    (tool_verify_and_submit_swap swapSt badEd [] "T").2.2 = [] := by
  have h : badEd.proposal_hash ≠ proposal_hash swapSt.my_address swapSt.peer_address
      swapSt.my_asa_id swapSt.my_asa_amount swapSt.peer_asa_id swapSt.peer_asa_amount := by
    intro heq
    have hlen := congrArg String.length heq
    rw [proposal_hash] at hlen
    rw [proposalHashObj_length] at hlen
    exact absurd hlen (by decide)
  exact ⟨(verify_and_submit_hash_mismatch swapSt badEd [] "T" h).1,
    (verify_and_submit_hash_mismatch swapSt badEd [] "T" h).2.1⟩

/-- The json.dumps escaping leaves the literal key "type" unchanged. -/
theorem escChars_type : escChars ['t', 'y', 'p', 'e'] = ['t', 'y', 'p', 'e'] := by
  decide

/-- The first member heads the comma-joined member list. -/
theorem joinComma_head (x : List Char) (xs : List (List Char)) :
    ∃ t, joinComma (x :: xs) = x ++ t := by
  cases xs with
  | nil => exact ⟨[], by simp [joinComma]⟩
  | cons y ys => exact ⟨',' :: joinComma (y :: ys), rfl⟩

/-- An object whose first member has key "type" serializes with
the bytes of a "type"-first JSON object as prefix. -/
theorem dumpObj_type_first (v : Jval) (rest : List (String × Jval)) :
    "\x7b\"type\":".data <+: dumpObj (("type", v) :: rest) := by
  obtain ⟨t, ht⟩ := joinComma_head (dumpMember ("type", v)) (rest.map dumpMember)
  refine ⟨dumpAtom v ++ (t ++ [Char.ofNat 125]), ?_⟩
  rw [dumpObj, List.map_cons, ht]
  simp [dumpMember, escChars_type, List.append_assoc]

/-- UTF-8 is an append homomorphism. -/
theorem utf8Chars_append (a b : List Char) :
    utf8Chars (a ++ b) = utf8Chars a ++ utf8Chars b := by
  simp [utf8Chars]

/-- UTF-8 preserves prefixes. -/
theorem utf8Chars_prefix (a b : List Char) (h : a <+: b) :
    utf8Chars a <+: utf8Chars b := by
  obtain ⟨t, rfl⟩ := h
  exact ⟨utf8Chars t, (utf8Chars_append a t).symm⟩

/-- The note bytes the htlc send_note writes are the serialization of the
canonicalized dict: "type" first, the other keys in caller order. -/
theorem htlc_sentNote_shape (st : HtlcSt) (sender receiver : String)
    (note_json : List (String × Jval)) (txid : String) (v : Jval) (s : List Char)
    (hv : note_json.lookup "type" = some v)
    (hs : (Htlc.tool_send_note st sender receiver note_json txid).sentNote = some s) :
    s = dumpObj (("type", v) :: note_json.filter (fun kv => kv.1 ≠ "type")) := by
  simp only [Htlc.tool_send_note, hv] at hs
  split_ifs at hs <;> simp_all

/-- C5 amended: only the HTLC variant canonicalizes: for every note body
holding a "type" key that htlc send_note accepts, the serialized note
bytes written to the ledger start with the "type" member, whatever key
order the caller supplied; the atomic-swap variant serializes in caller
key order and does not reorder. -/
theorem htlc_send_note_type_first (st : HtlcSt) (sender receiver : String)
    (note_json : List (String × Jval)) (txid : String) (v : Jval) (s : List Char)
    (hv : note_json.lookup "type" = some v)
    (hs : (Htlc.tool_send_note st sender receiver note_json txid).sentNote = some s) :
    "\x7b\"type\":".data <+: s ∧ utf8Bytes "\x7b\"type\":" <+: utf8Chars s := by
  rw [htlc_sentNote_shape st sender receiver note_json txid v s hv hs]
  refine ⟨dumpObj_type_first v _, utf8Chars_prefix _ _ (dumpObj_type_first v _)⟩

/-- Witness for the C5 amended theorem at a concrete input: a note given
with the "type" key in second position is serialized type-first. -/
theorem htlc_send_note_type_first_w :
    "\x7b\"type\":".data <+:
      dumpObj (("type", Jval.jstr "htlc_offer") ::
        hLateTypeNote.filter (fun kv => kv.1 ≠ "type")) :=
  (htlc_send_note_type_first htlcSt "ME" "PEER" hLateTypeNote "T"
    (Jval.jstr "htlc_offer") _ (by decide) (by decide)).1

/-- C5 counterexample: the atomic-swap send_note accepts a note whose
dict order puts another key before "type" and writes it serialized in
that caller order: the serialized bytes do not start with the "type"
member, so "type" is not the first key in this variant. -/
theorem swap_send_note_not_canonical_counterexample :
    (Atomicswap.tool_send_note swapSt "ME" "PEER" lateTypeNote "T").res = .ok "T" ∧
    (Atomicswap.tool_send_note swapSt "ME" "PEER" lateTypeNote "T").sentNote =
      some (dumpObj lateTypeNote) ∧
    ¬ ("\x7b\"type\"".data <+: dumpObj lateTypeNote) := by
  refine ⟨rfl, rfl, by decide⟩

/-- firstWithArgs returns the first transaction with LogicSig args. -/
theorem firstWithArgs_spec (l : List Htlc.LTxn) (t : Htlc.LTxn) :
    firstWithArgs l = some t →
    ∃ l1 l2, l = l1 ++ t :: l2 ∧ (∀ t2 ∈ l1, t2.lsigArgs = []) ∧
      t.lsigArgs ≠ [] := by
  induction l with
  | nil => intro h; simp [firstWithArgs] at h
  | cons a rest ih =>
    intro h
    by_cases ha : a.lsigArgs.isEmpty
    · rw [firstWithArgs, if_pos ha] at h
      obtain ⟨l1, l2, heq, hall, hne⟩ := ih h
      refine ⟨a :: l1, l2, by simp [heq], ?_, hne⟩
      intro t2 ht2
      rcases List.mem_cons.mp ht2 with rfl | h2
      · exact List.isEmpty_iff.mp ha
      · exact hall t2 h2
    · rw [firstWithArgs, if_neg ha] at h
      obtain rfl : a = t := by simpa using h
      exact ⟨[], rest, rfl, by simp, by simpa [List.isEmpty_iff] using ha⟩

/-- C8 amended: the preimage-discovery poll extracts the revealed secret
from the first claim transaction the indexer serves for the session's own
lock address: wait_for_preimage stores that extracted secret in the
session and marks it discovered without checking it against the session
commitment; the SHA-256 check against the commitment is enforced later,
by claim_hashlock_asa, which succeeds only when the presented secret
hashes to the session commitment (whenever one is present) — only then is
the secret used to claim from the buyer's lock. -/
theorem preimage_discovery_and_claim_gate :
    (∀ (u : List Htlc.LTxn) (addr : String) (r : Nat) (c : Htlc.ClaimInfo),
       poll_hashlock_claim u addr r = some c →
       ∃ l1 t l2, claimServed u addr r = l1 ++ t :: l2 ∧
         (∀ t2 ∈ l1, t2.lsigArgs = []) ∧ t.lsigArgs ≠ [] ∧
         c = ⟨bytesToHex (t.lsigArgs.headD []), t.id, t.round⟩) ∧
    (∀ (st : HtlcSt) (u : List Htlc.LTxn) (c : Htlc.ClaimInfo),
       st.my_hashlock ≠ "" →
       poll_hashlock_claim u st.my_hashlock st.last_seen_round = some c →
       (tool_wait_for_preimage_step st u).1.preimage = c.preimage ∧
       (tool_wait_for_preimage_step st u).1.status = "preimage_discovered" ∧
       (tool_wait_for_preimage_step st u).2 = .found c.preimage c.txid c.round) ∧
    (∀ (st : HtlcSt) (ha rec ph : String) (asa : Int) (txid r : String),
       (tool_claim_hashlock_asa st ha rec ph asa txid).2.1 = .ok r →
       st.hash ≠ "" →
       ∃ pb, bytesFromHex ph = some pb ∧ sha256hex pb = st.hash) := by
  refine ⟨?_, ?_, ?_⟩
  · intro u addr r c hc
    rw [poll_hashlock_claim] at hc
    cases hf : firstWithArgs (claimServed u addr r) with
    | none => rw [hf] at hc; exact absurd hc (by simp)
    | some t =>
      rw [hf] at hc
      obtain ⟨l1, l2, heq, hall, hne⟩ := firstWithArgs_spec _ t hf
      exact ⟨l1, t, l2, heq, hall, hne, by simpa using hc.symm⟩
  · intro st u c hlock hc
    simp [tool_wait_for_preimage_step, hlock, hc]
  · intro st ha rec ph asa txid r hok hhash
    rw [tool_claim_hashlock_asa] at hok
    split_ifs at hok
    all_goals try exact Except.noConfusion hok
    cases hfh : bytesFromHex ph with
    | none =>
      simp only [hfh] at hok
      exact Except.noConfusion hok
    | some pb =>
      simp only [hfh] at hok
      split_ifs at hok with hcheck <;>
        first
          | exact Except.noConfusion hok
          | (refine ⟨pb, rfl, ?_⟩
             by_contra hne
             exact hcheck ⟨hhash, hne⟩)

/-- Witness for the C8 amended theorem at a concrete input. -/
theorem preimage_discovery_and_claim_gate_w :
    (tool_wait_for_preimage_step sellerLockSt [claimTxn]).1.status =
      "preimage_discovered" :=
  ((preimage_discovery_and_claim_gate.2.1 sellerLockSt [claimTxn]
    ⟨bytesToHex (List.replicate 32 0), "CTX", 11⟩ (by decide) (by decide))).2.1

/-- C8 counterexample: wait_for_preimage stores the extracted secret and
marks the session discovered even though the secret does not hash to the
session commitment: no verification happens at discovery time. -/
theorem wait_for_preimage_stores_unverified_counterexample :
    (tool_wait_for_preimage_step sellerLockSt [claimTxn]).2 =
      .found (bytesToHex (List.replicate 32 0)) "CTX" 11 ∧
    (tool_wait_for_preimage_step sellerLockSt [claimTxn]).1.preimage =
      bytesToHex (List.replicate 32 0) ∧
    (tool_wait_for_preimage_step sellerLockSt [claimTxn]).1.status =
      "preimage_discovered" ∧
    bytesFromHex (bytesToHex (List.replicate 32 0)) = some (List.replicate 32 0) ∧
    sha256hex (List.replicate 32 0) ≠ sellerLockSt.hash := by
  refine ⟨rfl, rfl, rfl, by decide, by decide⟩

/-- Characters with equal code points are equal. -/
theorem charToNat_inj (a b : Char) (h : a.toNat = b.toNat) : a = b :=
  Char.ext (UInt32.ext h)

/-- The key order is total. -/
theorem strLeChars_total : ∀ xs ys : List Char,
    strLeChars xs ys = true ∨ strLeChars ys xs = true := by
  intro xs
  induction xs with
  | nil => intro ys; left; rfl
  | cons a as ih =>
    intro ys
    cases ys with
    | nil => right; rfl
    | cons b bs =>
      by_cases h1 : a.toNat < b.toNat
      · left; simp [strLeChars, h1]
      · by_cases h2 : b.toNat < a.toNat
        · right; simp [strLeChars, h2]
        · rcases ih bs with h | h
          · left; simp [strLeChars, h1, h2, h]
          · right; simp [strLeChars, h1, h2, h]

/-- The key order is antisymmetric. -/
theorem strLeChars_antisymm : ∀ xs ys : List Char,
    strLeChars xs ys = true → strLeChars ys xs = true → xs = ys := by
  intro xs
  induction xs with
  | nil =>
    intro ys h1 h2
    cases ys with
    | nil => rfl
    | cons b bs => simp [strLeChars] at h2
  | cons a as ih =>
    intro ys h1 h2
    cases ys with
    | nil => simp [strLeChars] at h1
    | cons b bs =>
      by_cases hab : a.toNat < b.toNat
      · simp [strLeChars, hab, Nat.lt_asymm hab, Nat.ne_of_lt hab] at h2
      · by_cases hba : b.toNat < a.toNat
        · simp [strLeChars, hab, hba] at h1
        · have heq : a = b := charToNat_inj a b (by omega)
          subst heq
          rw [strLeChars] at h1 h2
          simp [hab] at h1 h2
          rw [ih bs h1 h2]

/-- The key order is transitive. -/
theorem strLeChars_trans : ∀ xs ys zs : List Char,
    strLeChars xs ys = true → strLeChars ys zs = true →
    strLeChars xs zs = true := by
  intro xs
  induction xs with
  | nil => intro ys zs _ _; rfl
  | cons a as ih =>
    intro ys zs h1 h2
    cases ys with
    | nil => simp [strLeChars] at h1
    | cons b bs =>
      cases zs with
      | nil => simp [strLeChars] at h2
      | cons c cs =>
        rw [strLeChars] at h1 h2 ⊢
        split_ifs at h1 h2 ⊢ with g1 g2 g3 g4 g5 g6
        all_goals try rfl
        all_goals try omega
        all_goals try simp_all
        all_goals exact ih bs cs h1 h2

/-- Inserting two items with distinct keys commutes. -/
theorem insertKey_comm (x y : String × Jval) (hxy : x.1 ≠ y.1) :
    ∀ l, insertKey x (insertKey y l) = insertKey y (insertKey x l) := by
  have hdata : x.1.data ≠ y.1.data := fun h => hxy (String.ext h)
  have hnot : ¬ (strLeChars x.1.data y.1.data = true ∧
      strLeChars y.1.data x.1.data = true) :=
    fun hh => hdata (strLeChars_antisymm _ _ hh.1 hh.2)
  have htot := strLeChars_total x.1.data y.1.data
  intro l
  induction l with
  | nil =>
    rcases htot with h | h
    · have h2 : strLeChars y.1.data x.1.data = false := by
        by_cases hb : strLeChars y.1.data x.1.data = true
        · exact absurd ⟨h, hb⟩ hnot
        · simpa using hb
      simp [insertKey, h, h2]
    · have h2 : strLeChars x.1.data y.1.data = false := by
        by_cases hb : strLeChars x.1.data y.1.data = true
        · exact absurd ⟨hb, h⟩ hnot
        · simpa using hb
      simp [insertKey, h, h2]
  | cons z zs ih =>
    by_cases hyz : strLeChars y.1.data z.1.data = true
    · by_cases hxz : strLeChars x.1.data z.1.data = true
      · rcases htot with hC | hD
        · have hDf : strLeChars y.1.data x.1.data = false := by
            by_cases hb : strLeChars y.1.data x.1.data = true
            · exact absurd ⟨hC, hb⟩ hnot
            · simpa using hb
          simp [insertKey, hyz, hxz, hC, hDf]
        · have hCf : strLeChars x.1.data y.1.data = false := by
            by_cases hb : strLeChars x.1.data y.1.data = true
            · exact absurd ⟨hb, hD⟩ hnot
            · simpa using hb
          simp [insertKey, hyz, hxz, hD, hCf]
      · have hxzf : strLeChars x.1.data z.1.data = false := by simpa using hxz
        have hCf : strLeChars x.1.data y.1.data = false := by
          by_cases hb : strLeChars x.1.data y.1.data = true
          · exact absurd (strLeChars_trans _ _ _ hb hyz) (by simpa using hxz)
          · simpa using hb
        have hD : strLeChars y.1.data x.1.data = true := by
          rcases htot with h | h
          · rw [h] at hCf; cases hCf
          · exact h
        simp [insertKey, hyz, hxzf, hCf, hD]
    · have hyzf : strLeChars y.1.data z.1.data = false := by simpa using hyz
      by_cases hxz : strLeChars x.1.data z.1.data = true
      · have hDf : strLeChars y.1.data x.1.data = false := by
          by_cases hb : strLeChars y.1.data x.1.data = true
          · exact absurd (strLeChars_trans _ _ _ hb hxz) (by simpa using hyz)
          · simpa using hb
        have hC : strLeChars x.1.data y.1.data = true := by
          rcases htot with h | h
          · exact h
          · rw [h] at hDf; cases hDf
        simp [insertKey, hyzf, hxz, hC, hDf]
      · have hxzf : strLeChars x.1.data z.1.data = false := by simpa using hxz
        simp [insertKey, hyzf, hxzf, ih]

/-- Sorting by key is invariant under permutation when the keys are
unique (the keys of a dict are). -/
theorem sortKeysObj_perm : ∀ (l₁ l₂ : List (String × Jval)), l₁.Perm l₂ →
    (l₁.map Prod.fst).Nodup → sortKeysObj l₁ = sortKeysObj l₂ := by
  intro l₁ l₂ h
  induction h with
  | nil => intro _; rfl
  | cons x h ih =>
    intro hn
    simp only [sortKeysObj]
    rw [ih (by simpa using (List.Nodup.of_cons (by simpa using hn)))]
  | swap x y l =>
    intro hn
    have hne : y.1 ≠ x.1 := by
      simp only [List.map_cons, List.nodup_cons, List.mem_cons] at hn
      exact fun he => hn.1 (Or.inl he)
    simp only [sortKeysObj]
    exact insertKey_comm y x hne (sortKeysObj l)
  | trans h1 h2 ih1 ih2 =>
    intro hn
    rw [ih1 hn, ih2 ((h1.map Prod.fst).nodup hn)]

/-- The swap-terms dict has unique keys. -/
theorem propDict_keys_nodup (b s : String) (oa oam wa wam : Int) :
    ((propDict b s oa oam wa wam).map Prod.fst).Nodup := by
  simp [propDict]

/-- The proposal hash of a permuted swap-terms dict equals the proposal
hash of the six fields. -/
theorem proposalHashObj_of_perm (b s : String) (oa oam wa wam : Int)
    (l : List (String × Jval)) (h : l.Perm (propDict b s oa oam wa wam)) :
    proposalHashObj l = proposal_hash b s oa oam wa wam := by
  have hn : (l.map Prod.fst).Nodup :=
    ((h.map Prod.fst).symm).nodup (propDict_keys_nodup b s oa oam wa wam)
  unfold proposal_hash proposalHashObj propCanonical dumpObjSorted
  rw [sortKeysObj_perm l _ h hn]

/-- The key-sorted swap-terms dict, concretely. -/
theorem sortKeysObj_propDict (b s : String) (oa oam wa wam : Int) :
    sortKeysObj (propDict b s oa oam wa wam) =
      [("buyer", .jstr b), ("offer_amount", .jnum oam), ("offer_asa", .jnum oa),
       ("seller", .jstr s), ("want_amount", .jnum wam), ("want_asa", .jnum wa)] := rfl

/-- Keys serialize to themselves under json.dumps escaping. -/
theorem escChars_buyer : escChars ['b', 'u', 'y', 'e', 'r'] = ['b', 'u', 'y', 'e', 'r'] := by decide

/-- Keys serialize to themselves under json.dumps escaping. -/
theorem escChars_seller : escChars ['s', 'e', 'l', 'l', 'e', 'r'] = ['s', 'e', 'l', 'l', 'e', 'r'] := by decide

/-- Keys serialize to themselves under json.dumps escaping. -/
theorem escChars_offer_amount :
    escChars ['o', 'f', 'f', 'e', 'r', '_', 'a', 'm', 'o', 'u', 'n', 't'] = ['o', 'f', 'f', 'e', 'r', '_', 'a', 'm', 'o', 'u', 'n', 't'] := by decide

/-- Keys serialize to themselves under json.dumps escaping. -/
theorem escChars_offer_asa : escChars ['o', 'f', 'f', 'e', 'r', '_', 'a', 's', 'a'] = ['o', 'f', 'f', 'e', 'r', '_', 'a', 's', 'a'] := by
  decide

/-- Keys serialize to themselves under json.dumps escaping. -/
theorem escChars_want_amount :
    escChars ['w', 'a', 'n', 't', '_', 'a', 'm', 'o', 'u', 'n', 't'] = ['w', 'a', 'n', 't', '_', 'a', 'm', 'o', 'u', 'n', 't'] := by decide

/-- Keys serialize to themselves under json.dumps escaping. -/
theorem escChars_want_asa : escChars ['w', 'a', 'n', 't', '_', 'a', 's', 'a'] = ['w', 'a', 'n', 't', '_', 'a', 's', 'a'] := by
  decide

/-- The canonical serialization of the swap terms, split into literal
segments around the escaped addresses and the rendered amounts. -/
theorem propCanonical_propDict (b s : String) (oa oam wa wam : Int) :
    propCanonical (propDict b s oa oam wa wam) =
      ['\x7b', '\"', 'b', 'u', 'y', 'e', 'r', '\"', ':', '\"'] ++
      (escChars b.data ++
      (['\"', ',', '\"', 'o', 'f', 'f', 'e', 'r', '_', 'a', 'm', 'o', 'u', 'n', 't', '\"', ':'] ++
      (intChars oam ++
      ([',', '\"', 'o', 'f', 'f', 'e', 'r', '_', 'a', 's', 'a', '\"', ':'] ++
      (intChars oa ++
      ([',', '\"', 's', 'e', 'l', 'l', 'e', 'r', '\"', ':', '\"'] ++
      (escChars s.data ++
      (['\"', ',', '\"', 'w', 'a', 'n', 't', '_', 'a', 'm', 'o', 'u', 'n', 't', '\"', ':'] ++
      (intChars wam ++
      ([',', '\"', 'w', 'a', 'n', 't', '_', 'a', 's', 'a', '\"', ':'] ++
      (intChars wa ++
      ['\x7d']))))))))))) := by
  rw [propCanonical, dumpObjSorted, sortKeysObj_propDict]
  simp only [dumpObj, dumpMember, dumpAtom, joinComma, List.map_cons, List.map_nil,
    escChars_buyer, escChars_seller, escChars_offer_amount, escChars_offer_asa,
    escChars_want_amount, escChars_want_asa]
  simp [List.append_assoc]

/-- A character that json.dumps serializes as itself inside a string:
printable ASCII other than the quote and the backslash. -/
def plainChar (c : Char) : Prop :=
  32 ≤ c.toNat ∧ c.toNat < 127 ∧ c ≠ '"' ∧ c ≠ '\\'

instance (c : Char) : Decidable (plainChar c) := by
  unfold plainChar; infer_instance

/-- The little-endian decimal digit list evaluates back to the number. -/
theorem natDigsAux_val : ∀ (fuel n : Nat), n ≤ fuel →
    (natDigsAux fuel n).foldr (fun d a => d + 10 * a) 0 = n := by
  intro fuel
  induction fuel with
  | zero => intro n h; interval_cases n; rfl
  | succ f ih =>
    intro n h
    cases n with
    | zero => rfl
    | succ k =>
      have heq : natDigsAux (f + 1) (k + 1) =
          (k + 1) % 10 :: natDigsAux f ((k + 1) / 10) := rfl
      rw [heq, List.foldr_cons, ih ((k + 1) / 10) (by omega)]
      omega

/-- Decimal digits are below 10. -/
theorem natDigsAux_lt : ∀ (fuel n d : Nat), d ∈ natDigsAux fuel n → d < 10 := by
  intro fuel
  induction fuel with
  | zero => intro n d h; simp [natDigsAux] at h
  | succ f ih =>
    intro n d h
    cases n with
    | zero => simp [natDigsAux] at h
    | succ k =>
      have heq : natDigsAux (f + 1) (k + 1) =
          (k + 1) % 10 :: natDigsAux f ((k + 1) / 10) := rfl
      rw [heq, List.mem_cons] at h
      rcases h with h | h
      · omega
      · exact ih _ _ h

/-- The digit list of n evaluates to n. -/
theorem natDigs_val (n : Nat) :
    (natDigs n).foldr (fun d a => d + 10 * a) 0 = n :=
  natDigsAux_val n n (Nat.le_refl n)

/-- Digits of n are below 10. -/
theorem natDigs_lt (n : Nat) : ∀ d ∈ natDigs n, d < 10 :=
  fun d h => natDigsAux_lt n n d h

/-- Code point of a decimal digit character. -/
theorem charVal_digit (d : Nat) (h : d < 10) :
    (Char.ofNat (48 + d)).toNat = 48 + d := by
  interval_cases d <;> decide

/-- Evaluating rendered digit characters recovers evaluating the digits. -/
theorem foldr_digits (l : List Nat) (h : ∀ d ∈ l, d < 10) :
    l.foldr (fun d a => a * 10 + ((Char.ofNat (48 + d)).toNat - 48)) 0 =
    l.foldr (fun d a => d + 10 * a) 0 := by
  induction l with
  | nil => rfl
  | cons x xs ih =>
    simp only [List.foldr_cons]
    rw [ih (fun d hd => h d (List.mem_cons_of_mem x hd)),
        charVal_digit x (h x (List.mem_cons_self x xs))]
    omega

/-- The decimal rendering of a natural number evaluates back to it. -/
theorem natChars_val (n : Nat) :
    (natChars n).foldl (fun a c => a * 10 + (c.toNat - 48)) 0 = n := by
  by_cases h0 : n = 0
  · subst h0; rfl
  · rw [natChars, if_neg h0]
    simp only [List.foldl_map, List.foldl_reverse]
    rw [foldr_digits _ (natDigs_lt n)]
    exact natDigs_val n

/-- Decimal renderings of distinct naturals differ. -/
theorem natChars_inj (n m : Nat) (h : natChars n = natChars m) : n = m := by
  have hv := congrArg (List.foldl (fun a c => a * 10 + (c.toNat - 48)) 0) h
  rwa [natChars_val, natChars_val] at hv

/-- Every character of a decimal rendering is a digit character. -/
theorem natChars_mem (n : Nat) (c : Char) (h : c ∈ natChars n) :
    48 ≤ c.toNat ∧ c.toNat ≤ 57 := by
  rw [natChars] at h
  split_ifs at h with h0
  · simp only [List.mem_singleton] at h
    subst h; decide
  · simp only [List.mem_map] at h
    obtain ⟨d, hd, rfl⟩ := h
    have hd10 : d < 10 := natDigs_lt n d (List.mem_reverse.mp hd)
    rw [charVal_digit d hd10]
    omega

/-- Every character of an integer rendering is a digit or a minus sign. -/
theorem intChars_mem (k : Int) (c : Char) (h : c ∈ intChars k) :
    c.toNat = 45 ∨ (48 ≤ c.toNat ∧ c.toNat ≤ 57) := by
  cases k with
  | ofNat n => exact Or.inr (natChars_mem n c h)
  | negSucc m =>
    rw [intChars, List.mem_cons] at h
    rcases h with rfl | h
    · exact Or.inl rfl
    · exact Or.inr (natChars_mem _ c h)

/-- json.dumps renderings of distinct integers differ. -/
theorem intChars_inj (k m : Int) (h : intChars k = intChars m) : k = m := by
  cases k with
  | ofNat n =>
    cases m with
    | ofNat n' =>
      simp only [intChars] at h
      exact congrArg Int.ofNat (natChars_inj _ _ h)
    | negSucc m' =>
      simp only [intChars] at h
      have hm : '-' ∈ natChars n := by
        rw [h]; exact List.mem_cons_self _ _
      exact absurd (natChars_mem n '-' hm).1 (by decide)
  | negSucc n =>
    cases m with
    | ofNat n' =>
      simp only [intChars] at h
      have hm : '-' ∈ natChars n' := by
        rw [← h]; exact List.mem_cons_self _ _
      exact absurd (natChars_mem n' '-' hm).1 (by decide)
    | negSucc m' =>
      simp only [intChars, List.cons.injEq, true_and] at h
      have hsucc := natChars_inj _ _ h
      have hnm : n = m' := by omega
      rw [hnm]

/-- The comma separator never occurs inside a rendered integer. -/
theorem comma_not_mem_intChars (k : Int) : ',' ∉ intChars k := by
  intro h
  exact absurd (intChars_mem k ',' h) (by decide)

/-- The closing brace never occurs inside a rendered integer. -/
theorem rbrace_not_mem_intChars (k : Int) : Char.ofNat 125 ∉ intChars k := by
  intro h
  exact absurd (intChars_mem k _ h) (by decide)

/-- A plain character escapes to itself. -/
theorem escChar_plain (c : Char) (h : plainChar c) : escChar c = [c] := by
  obtain ⟨h1, h2, h3, h4⟩ := h
  have hn : c ≠ '\n' := by rintro rfl; revert h1; decide
  have ht : c ≠ '\t' := by rintro rfl; revert h1; decide
  have hr : c ≠ '\r' := by rintro rfl; revert h1; decide
  have h8 : ¬ c.toNat = 8 := by omega
  have h12 : ¬ c.toNat = 12 := by omega
  have h32 : ¬ c.toNat < 32 := by omega
  rw [escChar, if_neg h3, if_neg h4, if_neg hn, if_neg ht, if_neg hr,
      if_neg h8, if_neg h12, if_neg h32, if_pos h2]

/-- A list of plain characters escapes to itself. -/
theorem escChars_plain (l : List Char) (h : ∀ c ∈ l, plainChar c) :
    escChars l = l := by
  induction l with
  | nil => rfl
  | cons x xs ih =>
    rw [escChars, List.flatMap_cons,
        escChar_plain x (h x (List.mem_cons_self x xs))]
    have := ih (fun c hc => h c (List.mem_cons_of_mem x hc))
    rw [escChars] at this
    rw [this]
    rfl

/-- The quote never occurs in a list of plain characters. -/
theorem quote_not_mem_plain (l : List Char) (h : ∀ c ∈ l, plainChar c) :
    '"' ∉ l := fun hq => ((h _ hq).2.2.1) rfl

/-- Splitting two equal lists at a delimiter that occurs in neither prefix:
the prefixes and the suffixes agree. -/
theorem append_delim_inj (q : Char) :
    ∀ (xs ys t₁ t₂ : List Char), q ∉ xs → q ∉ ys →
    xs ++ q :: t₁ = ys ++ q :: t₂ → xs = ys ∧ t₁ = t₂ := by
  intro xs
  induction xs with
  | nil =>
    intro ys t₁ t₂ _ hy h
    cases ys with
    | nil =>
      simp only [List.nil_append, List.cons.injEq, true_and] at h
      exact ⟨rfl, h⟩
    | cons y ys =>
      simp only [List.nil_append, List.cons_append, List.cons.injEq] at h
      exact absurd (h.1 ▸ List.mem_cons_self y ys) hy
  | cons x xs ih =>
    intro ys t₁ t₂ hx hy h
    cases ys with
    | nil =>
      simp only [List.cons_append, List.nil_append, List.cons.injEq] at h
      exact absurd (h.1 ▸ List.mem_cons_self x xs) hx
    | cons y ys =>
      simp only [List.cons_append, List.cons.injEq] at h
      obtain ⟨hxy, h⟩ := h
      have := ih ys t₁ t₂ (fun hq => hx (List.mem_cons_of_mem x hq))
        (fun hq => hy (List.mem_cons_of_mem y hq)) h
      exact ⟨by rw [hxy, this.1], this.2⟩

/-- The canonical serialization determines the six swap-term fields, for
addresses made of plain ASCII characters (as Algorand addresses are:
base32 upper-case letters and digits). -/
theorem propCanonical_inj (b s b' s' : String) (oa oam wa wam oa' oam' wa' wam' : Int)
    (hb : ∀ c ∈ b.data, plainChar c) (hs : ∀ c ∈ s.data, plainChar c)
    (hb' : ∀ c ∈ b'.data, plainChar c) (hs' : ∀ c ∈ s'.data, plainChar c)
    (h : propCanonical (propDict b s oa oam wa wam) =
      propCanonical (propDict b' s' oa' oam' wa' wam')) :
    b = b' ∧ s = s' ∧ oa = oa' ∧ oam = oam' ∧ wa = wa' ∧ wam = wam' := by
  rw [propCanonical_propDict, propCanonical_propDict] at h
  rw [escChars_plain b.data hb, escChars_plain b'.data hb',
      escChars_plain s.data hs, escChars_plain s'.data hs'] at h
  simp only [List.cons_append, List.nil_append, List.cons.injEq,
    eq_self_iff_true, true_and] at h
  obtain ⟨hbd, h⟩ := append_delim_inj '"' _ _ _ _
    (quote_not_mem_plain b.data hb) (quote_not_mem_plain b'.data hb') h
  have hbe : b = b' := by
    cases b; cases b'; exact congrArg String.mk hbd
  simp only [List.cons.injEq, eq_self_iff_true, true_and] at h
  obtain ⟨hoam, h⟩ := append_delim_inj ',' _ _ _ _
    (comma_not_mem_intChars oam) (comma_not_mem_intChars oam') h
  simp only [List.cons.injEq, eq_self_iff_true, true_and] at h
  obtain ⟨hoa, h⟩ := append_delim_inj ',' _ _ _ _
    (comma_not_mem_intChars oa) (comma_not_mem_intChars oa') h
  simp only [List.cons.injEq, eq_self_iff_true, true_and] at h
  obtain ⟨hsd, h⟩ := append_delim_inj '"' _ _ _ _
    (quote_not_mem_plain s.data hs) (quote_not_mem_plain s'.data hs') h
  have hse : s = s' := by
    cases s; cases s'; exact congrArg String.mk hsd
  simp only [List.cons.injEq, eq_self_iff_true, true_and] at h
  obtain ⟨hwam, h⟩ := append_delim_inj ',' _ _ _ _
    (comma_not_mem_intChars wam) (comma_not_mem_intChars wam') h
  simp only [List.cons.injEq, eq_self_iff_true, true_and] at h
  obtain ⟨hwa, _⟩ := append_delim_inj (Char.ofNat 125) _ _ _ _
    (rbrace_not_mem_intChars wa) (rbrace_not_mem_intChars wa') h
  exact ⟨hbe, hse, intChars_inj _ _ hoa, intChars_inj _ _ hoam,
    intChars_inj _ _ hwa, intChars_inj _ _ hwam⟩

/-- Numeric value of one lowercase hex character. -/
def nibbleVal (c : Char) : Nat :=
  if c.toNat ≤ 57 then c.toNat - 48 else c.toNat - 87

/-- Big-endian is irrelevant here: the value of a hex string read as
little-endian nibbles, enough to compare strings for equality. -/
def hexListVal (l : List Char) : Nat :=
  (l.map nibbleVal).foldr (fun d a => d + 16 * a) 0

/-- nibbleVal inverts hexDigit below 16. -/
theorem nibbleVal_hexDigit (d : Nat) (h : d < 16) :
    nibbleVal (hexDigit d) = d := by
  interval_cases d <;> decide

/-- A little-endian base-16 value is bounded by 16 to the length. -/
theorem foldr16_lt (l : List Nat) (h : ∀ d ∈ l, d < 16) :
    l.foldr (fun d a => d + 16 * a) 0 < 16 ^ l.length := by
  induction l with
  | nil => simp
  | cons x xs ih =>
    simp only [List.foldr_cons, List.length_cons, pow_succ]
    have h1 := h x (List.mem_cons_self x xs)
    have h2 := ih (fun d hd => h d (List.mem_cons_of_mem x hd))
    omega

/-- Base-16 digit lists of equal length and equal value are equal. -/
theorem foldr16_inj : ∀ (l₁ l₂ : List Nat), l₁.length = l₂.length →
    (∀ d ∈ l₁, d < 16) → (∀ d ∈ l₂, d < 16) →
    l₁.foldr (fun d a => d + 16 * a) 0 = l₂.foldr (fun d a => d + 16 * a) 0 →
    l₁ = l₂ := by
  intro l₁
  induction l₁ with
  | nil =>
    intro l₂ hlen _ _ _
    cases l₂ with
    | nil => rfl
    | cons y ys => simp at hlen
  | cons x xs ih =>
    intro l₂ hlen h1 h2 hv
    cases l₂ with
    | nil => simp at hlen
    | cons y ys =>
      simp only [List.foldr_cons] at hv
      have hx := h1 x (List.mem_cons_self x xs)
      have hy := h2 y (List.mem_cons_self y ys)
      have hxy : x = y := by omega
      have htl : xs.foldr (fun d a => d + 16 * a) 0 =
          ys.foldr (fun d a => d + 16 * a) 0 := by omega
      have hlen' : xs.length = ys.length := by simpa using hlen
      rw [hxy, ih ys hlen' (fun d hd => h1 d (List.mem_cons_of_mem x hd))
        (fun d hd => h2 d (List.mem_cons_of_mem y hd)) htl]

/-- Mapping value then digit over a hex-digit string is the identity. -/
theorem hex_map_roundtrip (l : List Char)
    (h : ∀ c ∈ l, ∃ d, d < 16 ∧ c = hexDigit d) :
    l.map (fun c => hexDigit (nibbleVal c)) = l := by
  induction l with
  | nil => rfl
  | cons x xs ih =>
    obtain ⟨d, hd, rfl⟩ := h x (List.mem_cons_self x xs)
    rw [List.map_cons, nibbleVal_hexDigit d hd,
      ih (fun c hc => h c (List.mem_cons_of_mem _ hc))]

/-- Hex-digit strings of equal length and equal value are equal. -/
theorem hexListVal_inj (l₁ l₂ : List Char)
    (h1 : ∀ c ∈ l₁, ∃ d, d < 16 ∧ c = hexDigit d)
    (h2 : ∀ c ∈ l₂, ∃ d, d < 16 ∧ c = hexDigit d)
    (hlen : l₁.length = l₂.length)
    (hv : hexListVal l₁ = hexListVal l₂) : l₁ = l₂ := by
  have hd1 : ∀ d ∈ l₁.map nibbleVal, d < 16 := by
    intro d hd
    rw [List.mem_map] at hd
    obtain ⟨c, hc, rfl⟩ := hd
    obtain ⟨e, he, rfl⟩ := h1 c hc
    rw [nibbleVal_hexDigit e he]; exact he
  have hd2 : ∀ d ∈ l₂.map nibbleVal, d < 16 := by
    intro d hd
    rw [List.mem_map] at hd
    obtain ⟨c, hc, rfl⟩ := hd
    obtain ⟨e, he, rfl⟩ := h2 c hc
    rw [nibbleVal_hexDigit e he]; exact he
  have hm := foldr16_inj (l₁.map nibbleVal) (l₂.map nibbleVal)
    (by simp [hlen]) hd1 hd2 hv
  have hmm := congrArg (List.map hexDigit) hm
  simp only [List.map_map, Function.comp_def] at hmm
  rwa [hex_map_roundtrip l₁ h1, hex_map_roundtrip l₂ h2] at hmm

/-- The value of a hex-digit string is bounded by 16 to the length. -/
theorem hexListVal_lt (l : List Char)
    (h : ∀ c ∈ l, ∃ d, d < 16 ∧ c = hexDigit d) :
    hexListVal l < 16 ^ l.length := by
  have hd : ∀ d ∈ l.map nibbleVal, d < 16 := by
    intro d hd
    rw [List.mem_map] at hd
    obtain ⟨c, hc, rfl⟩ := hd
    obtain ⟨e, he, rfl⟩ := h c hc
    rw [nibbleVal_hexDigit e he]; exact he
  have := foldr16_lt _ hd
  simpa [hexListVal, List.length_map] using this

/-- Every character bytes.hex produces is a lowercase hex digit. -/
theorem mem_bytesToHex (bs : List Nat) (c : Char)
    (hc : c ∈ (bytesToHex bs).data) : ∃ d, d < 16 ∧ c = hexDigit d := by
  have hc' : c ∈ bs.flatMap byteHex := hc
  rw [List.mem_flatMap] at hc'
  obtain ⟨b, _, hcb⟩ := hc'
  simp only [byteHex, List.mem_cons, List.not_mem_nil, or_false] at hcb
  rcases hcb with h | h
  · exact ⟨b / 16 % 16, by omega, h⟩
  · exact ⟨b % 16, by omega, h⟩

/-- Every character of a proposal hash is a lowercase hex digit. -/
theorem mem_proposalHash_hex (kvs : List (String × Jval)) (c : Char)
    (hc : c ∈ (proposalHashObj kvs).data) : ∃ d, d < 16 ∧ c = hexDigit d :=
  mem_bytesToHex _ c (List.take_subset _ _ hc)

/-- The 64-bit value of the proposal hash, as the offer amount varies over
the naturals and the other five fields stay fixed: the codomain of the
truncated hash, seen through its numeric value. -/
def propHashVal (n : Nat) : Fin (2 ^ 64) :=
  ⟨hexListVal (proposal_hash "" "" 0 (n : Int) 0 0).data, by
    have hlt := hexListVal_lt (proposal_hash "" "" 0 (n : Int) 0 0).data
      (fun c hc => mem_proposalHash_hex _ c hc)
    have hlen : (proposal_hash "" "" 0 (n : Int) 0 0).data.length = 16 :=
      proposalHashObj_length _
    rw [hlen] at hlt
    exact lt_of_lt_of_eq hlt (by norm_num)⟩

/-- Strings with equal character data are equal. -/
theorem string_eq_of_data_eq (a b : String) (h : a.data = b.data) : a = b := by
  cases a
  cases b
  exact congrArg String.mk h

/-- The numeric view of propHashVal, definitionally. -/
theorem propHashVal_val (n : Nat) :
    (propHashVal n).val = hexListVal (proposal_hash "" "" 0 (n : Int) 0 0).data :=
  rfl

/-- C6: counterexample to the claim as stated.  _proposal_hash truncates
the sha256 hex digest to 16 characters, 64 bits, while the amount fields
range over all integers; by pigeonhole over the 2^64 possible truncated
digests, two swap-term dicts that differ in offer_amount (all other
fields equal) share the same proposal hash, so it is not true that every
pair of SwapTerms differing in at least one field have different hashes. -/
theorem proposal_hash_truncation_collision_counterexample :
    ¬ (∀ (b s : String) (oa oam wa wam oam' : Int), oam ≠ oam' →
        proposal_hash b s oa oam wa wam ≠ proposal_hash b s oa oam' wa wam) := by
  intro hall
  obtain ⟨n, m, hne, heq⟩ := Finite.exists_ne_map_eq_of_infinite propHashVal
  have hv0 := congrArg Fin.val heq
  rw [propHashVal_val n, propHashVal_val m] at hv0
  have hlen : (proposal_hash "" "" 0 (n : Int) 0 0).data.length =
      (proposal_hash "" "" 0 (m : Int) 0 0).data.length := by
    have h1 : (proposal_hash "" "" 0 (n : Int) 0 0).data.length = 16 :=
      proposalHashObj_length (propDict "" "" 0 (n : Int) 0 0)
    have h2 : (proposal_hash "" "" 0 (m : Int) 0 0).data.length = 16 :=
      proposalHashObj_length (propDict "" "" 0 (m : Int) 0 0)
    rw [h1, h2]
  have hdata := hexListVal_inj _ _
    (fun c hc => mem_proposalHash_hex (propDict "" "" 0 (n : Int) 0 0) c hc)
    (fun c hc => mem_proposalHash_hex (propDict "" "" 0 (m : Int) 0 0) c hc)
    hlen hv0
  have heqs : proposal_hash "" "" 0 (n : Int) 0 0 =
      proposal_hash "" "" 0 (m : Int) 0 0 :=
    string_eq_of_data_eq _ _ hdata
  exact hall "" "" 0 (n : Int) 0 0 (m : Int)
    (fun hc => hne (by exact_mod_cast hc)) heqs

/-- C6 (amended): _proposal_hash is a deterministic function of the six
swap-term field values: the hash of any key reordering of the terms dict
equals the hash of the six fields, and the canonically serialized terms
that are hashed determine the six fields exactly (for addresses of plain
printable ASCII, as Algorand base32 addresses are) — so any field change
changes the full sha256 input; the 16-hex-character truncation, however,
is not injective over the unbounded amount fields (see the pigeonhole
counterexample). -/
theorem proposal_hash_key_order_invariant_and_binding
    (b s b' s' : String) (oa oam wa wam oa' oam' wa' wam' : Int)
    (kvs : List (String × Jval))
    (hperm : kvs.Perm (propDict b s oa oam wa wam))
    (hb : ∀ c ∈ b.data, plainChar c) (hs : ∀ c ∈ s.data, plainChar c)
    (hb' : ∀ c ∈ b'.data, plainChar c) (hs' : ∀ c ∈ s'.data, plainChar c) :
    proposalHashObj kvs = proposal_hash b s oa oam wa wam ∧
    (propCanonical (propDict b s oa oam wa wam) =
        propCanonical (propDict b' s' oa' oam' wa' wam') →
      b = b' ∧ s = s' ∧ oa = oa' ∧ oam = oam' ∧ wa = wa' ∧ wam = wam') :=
  ⟨proposalHashObj_of_perm b s oa oam wa wam kvs hperm,
   fun h => propCanonical_inj b s b' s' oa oam wa wam oa' oam' wa' wam'
     hb hs hb' hs' h⟩

/-- Witness for C6 at concrete inputs: a key-reordered terms dict hashes
to the hash of its fields, and canonical-serialization equality forces
field equality. -/
theorem proposal_hash_key_order_invariant_and_binding_w :
    ([("seller", Jval.jstr "S7"), ("buyer", Jval.jstr "B7"),
      ("offer_asa", Jval.jnum 5), ("offer_amount", Jval.jnum 6),
      ("want_asa", Jval.jnum 7), ("want_amount", Jval.jnum 8)].Perm
        (propDict "B7" "S7" 5 6 7 8)) ∧
    (∀ c ∈ "B7".data, plainChar c) ∧ (∀ c ∈ "S7".data, plainChar c) ∧
    (∀ c ∈ "XX".data, plainChar c) ∧ (∀ c ∈ "YY".data, plainChar c) ∧
    (proposalHashObj [("seller", Jval.jstr "S7"), ("buyer", Jval.jstr "B7"),
        ("offer_asa", Jval.jnum 5), ("offer_amount", Jval.jnum 6),
        ("want_asa", Jval.jnum 7), ("want_amount", Jval.jnum 8)] =
      proposal_hash "B7" "S7" 5 6 7 8 ∧
     (propCanonical (propDict "B7" "S7" 5 6 7 8) =
         propCanonical (propDict "XX" "YY" 1 2 3 4) →
       "B7" = "XX" ∧ "S7" = "YY" ∧ (5 : Int) = 1 ∧ (6 : Int) = 2 ∧
       (7 : Int) = 3 ∧ (8 : Int) = 4)) :=
  ⟨List.Perm.swap _ _ _, by decide, by decide, by decide, by decide,
   proposal_hash_key_order_invariant_and_binding "B7" "S7" "XX" "YY"
     5 6 7 8 1 2 3 4 _ (List.Perm.swap _ _ _)
     (by decide) (by decide) (by decide) (by decide)⟩
